import Mathlib

/-!
Verification development for the hybrid semantic page locator
(`locator.py`): tokenizer, chunker, BM25 candidate selection, score
fusion (RRF and percentile blend), and the orchestrator state machine
(index build / cancellation / search guards).

Python text is modelled over the ASCII + CJK alphabet: `\w` (word
characters) is modelled as ASCII alphanumerics, underscore and the CJK
ideograph range; `\s` as ASCII whitespace.  Real-valued (float) scores
are modelled as rationals.
-/

namespace Locator

/-! ### Tokenizer (`tokenize`, locator.py lines 216-245) -/

/-- ASCII fragment of Python `str.lower` (only A-Z are relevant for the
modelled alphabet). -/
def pyLower (c : Char) : Char :=
  if 'A' ≤ c ∧ c ≤ 'Z' then Char.ofNat (c.toNat + 32) else c

/-- Characters matched by the class in the regex `[a-z0-9]+`. -/
def isLowerAlnum (c : Char) : Bool :=
  ('a' ≤ c && c ≤ 'z') || ('0' ≤ c && c ≤ '9')

/-- CJK ideograph range of the regex class used by `tokenize`
(`一`-`鿿`). -/
def isCJK (c : Char) : Bool :=
  0x4e00 ≤ c.toNat && c.toNat ≤ 0x9fff

/-- Word characters for the regex boundary `\b`, restricted to the
modelled alphabet (ASCII `\w` plus the CJK range, which Python's
Unicode `\w` includes). -/
def isWordChar (c : Char) : Bool :=
  ('a' ≤ c && c ≤ 'z') || ('A' ≤ c && c ≤ 'Z') ||
    ('0' ≤ c && c ≤ '9') || c = '_' || isCJK c

/-- Maximal runs of word characters (accumulator-based scanner); used
to realise `re.findall` with `\b` boundaries on the modelled alphabet. -/
def wordRunsAux (acc : List Char) : List Char → List (List Char)
  | [] => if acc.isEmpty then [] else [acc.reverse]
  | c :: cs =>
    if isWordChar c then wordRunsAux (c :: acc) cs
    else if acc.isEmpty then wordRunsAux [] cs
    else acc.reverse :: wordRunsAux [] cs

def wordRuns (l : List Char) : List (List Char) :=
  wordRunsAux [] l

/-- `re.findall(r'\b[a-z0-9]+\b', text)` on lower-cased text over the
modelled alphabet: exactly the maximal word-character runs that consist
purely of `[a-z0-9]` characters (a run touching `_` or a CJK character
fails the `\b` boundary on that side). -/
def englishTokens (l : List Char) : List String :=
  ((wordRuns l).filter (fun r => r.all isLowerAlnum)).map (fun r => String.mk r)

/-- `re.findall(r'[一-鿿]', text)`: each CJK character in order. -/
def chineseTokens (l : List Char) : List String :=
  (l.filter isCJK).map (fun c => String.mk [c])

/-- The fixed English stop-word set of `tokenize`. -/
def stopwords : List String :=
  ["the", "a", "an", "is", "are", "was", "were", "be", "been",
   "being", "have", "has", "had", "do", "does", "did", "will",
   "would", "could", "should", "may", "might", "must", "shall",
   "can", "need", "dare", "ought", "used", "to", "of", "in",
   "for", "on", "with", "at", "by", "from", "as", "into", "through",
   "during", "before", "after", "above", "below", "between", "under",
   "again", "further", "then", "once", "here", "there", "when",
   "where", "why", "how", "all", "each", "few", "more", "most",
   "other", "some", "such", "no", "nor", "not", "only", "own",
   "same", "so", "than", "too", "very", "just", "and", "but",
   "if", "or", "because", "until", "while", "this", "that", "these",
   "those", "it", "its"]

/-- `_is_cjk_char` of the source: a single character in the CJK range. -/
def isCJKsingleTok (t : String) : Bool :=
  match t.data with
  | [c] => isCJK c
  | _ => false

/-- Token list of a character sequence: English tokens then Chinese
tokens, filtered by the length/stop-word rule of the source. -/
def tokenizeChars (l : List Char) : List String :=
  let low := l.map pyLower
  ((englishTokens low ++ chineseTokens low).filter
    (fun t => (decide (1 < t.length) || isCJKsingleTok t) && !stopwords.contains t))

/-- `tokenize(text)` (locator.py lines 216-245). -/
def tokenize (s : String) : List String :=
  tokenizeChars s.data

/-! ### Unit splitting (`PDFIndexer._split_units`, lines 272-282) -/

/-- ASCII fragment of Python's `\s` class. -/
def isPyWs (c : Char) : Bool :=
  c = ' ' || c = '\t' || c = '\n' || c = '\r' || c = '\x0b' || c = '\x0c'

/-- Python `str.strip()` on the modelled (ASCII whitespace) alphabet. -/
def pyStrip (s : String) : String :=
  String.mk (((s.data.dropWhile isPyWs).reverse.dropWhile isPyWs).reverse)

/-- Resolution of a finished candidate separator run for
`re.split(r"\n\s*\n", text)`.  `pend` holds the run's characters in
reverse (the run starts with a newline and contains only whitespace).
The greedy match covers the run from its first newline to its LAST
newline, provided a second newline exists; the whitespace after that
last newline starts the next piece.  Returns `some leftoverRev` (the
next piece's seed, reversed) on a match, `none` when the run contains
no second newline (then it is plain content). -/
def blankRunMatch (pend : List Char) : Option (List Char) :=
  let lead := pend.takeWhile (fun d => ¬(d = '\n'))
  if lead.length + 1 < pend.length then some lead else none

/-- Scanner realising `re.split(r"\n\s*\n", text)`: a match starts at a
newline and extends, through whitespace, to the last newline of the
maximal whitespace run that follows (the greedy `\s*` backtracks to the
final `\n`).  `acc` is the current piece reversed, `pend` the pending
candidate run reversed (empty when outside a run). -/
def blankSplitAux (acc : List Char) (pend : List Char) :
    List Char → List (List Char)
  | [] =>
    if pend.isEmpty then [acc.reverse]
    else
      match blankRunMatch pend with
      | some leftover => [acc.reverse, leftover.reverse]
      | none => [(pend ++ acc).reverse]
  | c :: rest =>
    if pend.isEmpty then
      if c = '\n' then blankSplitAux acc [c] rest
      else blankSplitAux (c :: acc) [] rest
    else if isPyWs c then blankSplitAux acc (c :: pend) rest
    else
      match blankRunMatch pend with
      | some leftover => acc.reverse :: blankSplitAux (c :: leftover) [] rest
      | none => blankSplitAux (c :: (pend ++ acc)) [] rest

/-- Sentence enders of the lookbehind class `[\.\?\!。！？]`. -/
def isSentEnd (c : Char) : Bool :=
  c = '.' || c = '?' || c = '!' || c = '。' || c = '！' || c = '？'

/-- Scanner realising `re.split(r"(?<=[\.\?\!。！？])\s+", p)`: a match
is a maximal whitespace run whose preceding character is a sentence
ender.  `inSep` marks that the scanner is inside such a run (consuming
the greedy `\s+`). -/
def sentSplitAux (inSep : Bool) (prev : Option Char) (acc : List Char) :
    List Char → List (List Char)
  | [] => [acc.reverse]
  | c :: rest =>
    if inSep then
      if isPyWs c then sentSplitAux true none acc rest
      else sentSplitAux false (some c) (c :: acc) rest
    else if isPyWs c ∧ (match prev with
        | some p => isSentEnd p
        | none => false) = true then
      acc.reverse :: sentSplitAux true none [] rest
    else sentSplitAux false (some c) (c :: acc) rest

/-- Python `str.splitlines()` on the modelled alphabet
(`\n`, `\r\n`, `\r`, `\x0b`, `\x0c` boundaries, no trailing empty
line). -/
def splitlinesAux (acc : List Char) : List Char → List (List Char)
  | [] => if acc.isEmpty then [] else [acc.reverse]
  | '\r' :: '\n' :: rest => acc.reverse :: splitlinesAux [] rest
  | c :: rest =>
    if c = '\n' || c = '\r' || c = '\x0b' || c = '\x0c' then
      acc.reverse :: splitlinesAux [] rest
    else splitlinesAux (c :: acc) rest

/-- `PDFIndexer._split_units(text)`: paragraphs on blank lines, then
sentence splitting, falling back to line splitting when a paragraph has
no internal sentence boundary. -/
def splitUnits (t : String) : List String :=
  let paragraphs :=
    ((blankSplitAux [] [] t.data).map (fun p => pyStrip (String.mk p))).filter
      (fun p => p ≠ "")
  (paragraphs.map (fun p =>
    let parts := sentSplitAux false none [] p.data
    if parts.length = 1 then
      let lines :=
        ((splitlinesAux [] p.data).map (fun l => pyStrip (String.mk l))).filter
          (fun l => l ≠ "")
      if lines.isEmpty then [pyStrip p] else lines
    else
      ((parts.map (fun s => pyStrip (String.mk s))).filter (fun s => s ≠ "")))).flatten

/-! ### Chunker (`PDFIndexer._chunk_text`, lines 284-310) -/

def MAX_TOKENS : Nat := 400
def OVERLAP_TOKENS : Nat := 80

/-- `tok_count = len(tokenize(unit)); if tok_count == 0: tok_count = 1`. -/
def tokCount (u : String) : Nat :=
  let n := (tokenize u).length
  if n = 0 then 1 else n

/-- The eviction loop: `while window and total_tokens > 80: pop(0)`. -/
def evict (window : List (String × Nat)) (total : Nat) :
    List (String × Nat) × Nat :=
  match window with
  | [] => ([], total)
  | (u, t) :: ws =>
    if OVERLAP_TOKENS < total then evict ws (total - t) else ((u, t) :: ws, total)

/-- Python `" ".join(...)` on a list of strings. -/
def pyJoin (sep : String) : List String → String
  | [] => ""
  | [u] => u
  | u :: us => u ++ sep ++ pyJoin sep us

/-- One emitted chunk: `" ".join(u for u, _ in window).strip()`. -/
def windowJoin (window : List (String × Nat)) : String :=
  pyStrip (pyJoin " " (window.map Prod.fst))

/-- Main accumulation loop of `_chunk_text` (lines 293-308), collecting
the joined chunk strings. -/
def chunkGo (units : List String) (window : List (String × Nat))
    (total : Nat) (chunks : List String) : List String :=
  match units with
  | [] => if window.isEmpty then chunks else chunks ++ [windowJoin window]
  | u :: us =>
    let tc := tokCount u
    if MAX_TOKENS < total + tc ∧ ¬window.isEmpty then
      let e := evict window total
      chunkGo us (e.1 ++ [(u, tc)]) (e.2 + tc) (chunks ++ [windowJoin window])
    else
      chunkGo us (window ++ [(u, tc)]) (total + tc) chunks

/-- `PDFIndexer._chunk_text(text)`. -/
def chunkText (t : String) : List String :=
  if (splitUnits t).isEmpty then []
  else (chunkGo (splitUnits t) [] 0 []).filter (fun c => c ≠ "")

/-- Analysis companion of `chunkGo` that records each emitted chunk as
its window (unit, count) list instead of the joined string; related to
`chunkGo` by `chunkGo_eq_windows` below. -/
def chunkWindows (units : List String) (window : List (String × Nat))
    (total : Nat) : List (List (String × Nat)) :=
  match units with
  | [] => if window.isEmpty then [] else [window]
  | u :: us =>
    let tc := tokCount u
    if MAX_TOKENS < total + tc ∧ ¬window.isEmpty then
      let e := evict window total
      window :: chunkWindows us (e.1 ++ [(u, tc)]) (e.2 + tc)
    else
      chunkWindows us (window ++ [(u, tc)]) (total + tc)

/-! ### Sorting / `np.argsort` model

`np.argsort` sorts ascending; the source always reverses it
(`[::-1]`) for descending order.  Ties are modelled with the stable
order (original index order), a fixed deterministic choice. -/

/-- Insert an (index, score) pair into an ascending-by-score list,
stably (equal scores keep the earlier index first). -/
def insertAsc (p : Nat × ℚ) : List (Nat × ℚ) → List (Nat × ℚ)
  | [] => [p]
  | q :: qs => if p.2 ≤ q.2 then p :: q :: qs else q :: insertAsc p qs

/-- Stable insertion sort, ascending by score. -/
def sortPairs (l : List (Nat × ℚ)) : List (Nat × ℚ) :=
  l.foldr insertAsc []

/-- `np.argsort(scores)` (ascending index list). -/
def argsortAsc (scores : List ℚ) : List Nat :=
  (sortPairs scores.enum).map Prod.fst

/-- `BM25Retriever.search` selection (lines 385-398) with the library
scoring abstracted: given the BM25 score of every document, take the
`top_k` indices by descending score and keep those with score `> 0`. -/
def bm25Select (scores : List ℚ) (topK : Nat) : List (Nat × ℚ) :=
  ((argsortAsc scores).reverse.take topK).filterMap (fun i =>
    match scores[i]? with
    | some s => if 0 < s then some (i, s) else none
    | none => none)

/-! ### RRF fusion (`SemanticReranker.rerank` lines 551-560,
`HybridLocator._search_deep` lines 832-840) -/

/-- Rank (1 = best) of candidate `i` under a score list: its position
in the descending argsort, plus one (`sem_pos[sem_rank] = arange(1, n+1)`). -/
def rankPos (scores : List ℚ) (i : Nat) : Nat :=
  (argsortAsc scores).reverse.indexOf i + 1

/-- RRF combined scores: `1/(60+sem_rank) + 1/(60+bm_rank)` per
candidate. -/
def rrfCombined (semScores bmScores : List ℚ) : List ℚ :=
  (List.range semScores.length).map (fun i =>
    1 / (60 + (rankPos semScores i : ℚ)) + 1 / (60 + (rankPos bmScores i : ℚ)))

/-- Result ordering under RRF fusion: candidate indices by descending
combined score, truncated to `top_k`. -/
def rrfOrder (semScores bmScores : List ℚ) (topK : Nat) : List Nat :=
  (argsortAsc (rrfCombined semScores bmScores)).reverse.take topK

/-! ### Percentile normalization (`_percentile_normalize`, lines
423-445) and the blend fusion -/

/-- Ascending insertion sort of rationals (for `np.percentile`). -/
def insertQ (x : ℚ) : List ℚ → List ℚ
  | [] => [x]
  | y :: ys => if x ≤ y then x :: y :: ys else y :: insertQ x ys

def sortQ (l : List ℚ) : List ℚ :=
  l.foldr insertQ []

/-- `float(scores.min())`. -/
def listMinQ : List ℚ → ℚ
  | [] => 0
  | [x] => x
  | x :: y :: ys => min x (listMinQ (y :: ys))

/-- `float(scores.max())`. -/
def listMaxQ : List ℚ → ℚ
  | [] => 0
  | [x] => x
  | x :: y :: ys => max x (listMaxQ (y :: ys))

/-- `np.percentile(scores, q)` with the default linear interpolation:
at fractional position `(n-1)*q/100` of the ascending sort. -/
def percentile (scores : List ℚ) (q : ℚ) : ℚ :=
  let s := sortQ scores
  let h : ℚ := (s.length - 1 : ℚ) * q / 100
  let lo : Nat := (⌊h⌋).toNat
  let slo := s.getD lo 0
  slo + (h - (lo : ℚ)) * (s.getD (lo + 1) slo - slo)

/-- The float tolerance `eps = 1e-8`. -/
def EPS : ℚ := 1 / 100000000

/-- `np.clip(x, 0.0, 1.0)`. -/
def clip01 (x : ℚ) : ℚ :=
  min (max x 0) 1

/-- `_percentile_normalize(scores)` (lines 423-445). -/
def percentileNormalize (scores : List ℚ) : List ℚ :=
  if scores.length = 0 then scores
  else if scores.length < 20 then
    let sMin := listMinQ scores
    let sMax := listMaxQ scores
    let denom := sMax - sMin
    if denom < EPS then scores.map (fun _ => 0)
    else scores.map (fun x => (x - sMin) / denom)
  else
    let p5 := percentile scores 5
    let p95 := percentile scores 95
    let denom := p95 - p5
    if denom < EPS then
      let sMin := listMinQ scores
      let sMax := listMaxQ scores
      let denom2 := sMax - sMin
      if denom2 < EPS then scores.map (fun _ => 0)
      else scores.map (fun x => (x - sMin) / denom2)
    else scores.map (fun x => clip01 ((x - p5) / denom))

/-- Combined scores of the percentile blend
(`(1 - bm25_weight) * semantic + bm25_weight * bm25` on the two
normalized distributions, rerank lines 561-565 and `_search_deep`
lines 841-844). -/
def blendCombined (semScores bmScores : List ℚ) (w : ℚ) : List ℚ :=
  List.zipWith (fun s b => (1 - w) * s + w * b)
    (percentileNormalize semScores) (percentileNormalize bmScores)

/-- Result ordering under the percentile blend: candidate indices by
descending combined score, truncated to `top_k`. -/
def blendOrder (semScores bmScores : List ℚ) (w : ℚ) (topK : Nat) : List Nat :=
  (argsortAsc (blendCombined semScores bmScores w)).reverse.take topK

/-- Modelled from the spec's words, for comparison with the source's
`_percentile_normalize`: "normalize each score distribution
independently using the 5th/95th percentile as a robust min/max
(falling back to true min/max when the candidate set has fewer than 20
members, and to an all-zero vector when the distribution has no
spread) clipped to [0,1]". -/
def percentileNormalizeSpec (scores : List ℚ) : List ℚ :=
  if scores.length = 0 then scores
  else if listMaxQ scores - listMinQ scores = 0 then scores.map (fun _ => 0)
  else if scores.length < 20 then
    scores.map (fun x =>
      clip01 ((x - listMinQ scores) / (listMaxQ scores - listMinQ scores)))
  else
    scores.map (fun x =>
      clip01 ((x - percentile scores 5) / (percentile scores 95 - percentile scores 5)))

/-! ### Orchestrator (`HybridLocator`, lines 579-863) -/

/-- A chunk record (`PageDocument`, lines 196-213); the cached token
list is derivable from `text` and is omitted here. -/
structure PageDocument where
  pdf_name : String
  page_num : Nat
  text : String
  chunk_id : Nat
deriving DecidableEq, Repr

def lowerStr (s : String) : String :=
  String.mk (s.data.map pyLower)

def listPrefixOf : List Char → List Char → Bool
  | [], _ => true
  | _ :: _, [] => false
  | a :: as, b :: bs => a = b && listPrefixOf as bs

def strContainsAux (needle : List Char) : List Char → Bool
  | [] => listPrefixOf needle []
  | c :: cs => listPrefixOf needle (c :: cs) || strContainsAux needle cs

/-- Python `needle in hay` on strings. -/
def strContains (hay needle : String) : Bool :=
  strContainsAux needle.data hay.data

/-- The multilingual-model name heuristic of `search` (lines 756-761):
`model_name and ("multilingual" in ... or "e5" in ... or "zh" in ...
or "chinese" in ...)` on the lower-cased name. -/
def isMultiModel (modelName : Option String) : Bool :=
  match modelName with
  | none => false
  | some n =>
    strContains (lowerStr n) "multilingual" || strContains (lowerStr n) "e5" ||
      strContains (lowerStr n) "zh" || strContains (lowerStr n) "chinese"

/-- In-memory state of a `HybridLocator` (fields set in `__init__`,
lines 582-590).  `bm25Built` / `rerankerLoaded` model whether
`self.bm25` / `self.reranker` is not `None`. -/
structure LocState where
  modelName : Option String
  documents : List PageDocument
  bm25Built : Bool
  rerankerLoaded : Bool
  docEmbeddings : Option (List (List ℚ))
  deepMode : Bool
deriving DecidableEq, Repr

/-- `HybridLocator.__init__`. -/
def initState (modelName : Option String) : LocState :=
  ⟨modelName, [], false, false, none, false⟩

/-- Outcome of the guard/candidate/fallback stage of `search`:
`err` models a raised `RuntimeError`, otherwise the candidate set and
bias handed to fusion, plus the returned cross-lingual flag. -/
structure SearchOutcome where
  err : Option String
  candidates : List (PageDocument × ℚ)
  bias : ℚ
  crossLingual : Bool
deriving DecidableEq, Repr

/-- Guard, cross-lingual fallback and candidate logic of
`HybridLocator.search` (lines 748-786) and the trigger of
`_search_deep` (lines 819-825).  The two library-backed retrieval
results are abstracted as inputs: `lexCandidates` is
`self.bm25.search(query, bm25_candidates)` (fast mode) and `allScores`
is `self.bm25.bm25.get_scores(query_tokens)` over all documents (deep
mode); `sampler` abstracts `random.sample(candidates, 100)`. -/
def searchStage (st : LocState) (lexCandidates : List (PageDocument × ℚ))
    (allScores : List ℚ)
    (sampler : List (PageDocument × ℚ) → List (PageDocument × ℚ))
    (bias : ℚ) : SearchOutcome :=
  if st.documents.isEmpty then ⟨none, [], bias, false⟩
  else if st.bm25Built = false then
    ⟨some "Index not built. Call build_index() first.", [], bias, false⟩
  else
    let isMulti := isMultiModel st.modelName
    if st.deepMode ∧ st.rerankerLoaded ∧ st.docEmbeddings.isSome then
      -- `_search_deep`: every document is scored; cross-lingual when
      -- `bm25_scores.max() == 0 and is_multilingual`
      if listMaxQ allScores = 0 ∧ isMulti = true then
        ⟨none, st.documents.zip allScores, 0, true⟩
      else ⟨none, st.documents.zip allScores, bias, false⟩
    else
      if lexCandidates.isEmpty ∧ st.rerankerLoaded = true ∧ isMulti = true then
        let allCands := st.documents.map (fun d => (d, (0 : ℚ)))
        let cands := if 100 < allCands.length then sampler allCands else allCands
        ⟨none, cands, 0, true⟩
      else if lexCandidates.isEmpty then ⟨none, [], bias, false⟩
      else ⟨none, lexCandidates, bias, false⟩

/-! ### Index build, cache and cancellation (`build_index` lines
592-688, `precompute_embeddings` lines 690-732) -/

/-- `_index_cache_prefix` (lines 93-96): stable cache-file stem per
folder hash + OCR settings. -/
def indexCacheKey (folderHash : String) (ocrMode : String) (ocrDpi : Nat) : String :=
  "locator_" ++ folderHash ++ "_" ++ ocrMode ++ "_dpi" ++ toString ocrDpi

/-- The silent coercion at the top of `build_index` (lines 595-596):
any value outside the three valid modes becomes "fast". -/
def normalizeOcrMode (m : String) : String :=
  if m = "fast" ∨ m = "deep" ∨ m = "off" then m else "fast"

/-- On-disk cache model: the sets of cache keys whose `.pkl` /
`.meta.json` file exists. -/
structure DiskState where
  pkl : List String
  meta : List String
deriving DecidableEq, Repr

structure BuildResult where
  st : LocState
  disk : DiskState
  err : Option String
deriving DecidableEq, Repr

/-- Retriever initialization after documents are determined
(`build_index` lines 671-688; the cache-hit branch lines 625-638 is the
same logic). -/
def finishInit (st : LocState) (disk : DiskState) : BuildResult :=
  if st.documents.isEmpty then
    ⟨{ st with bm25Built := false, rerankerLoaded := false,
               deepMode := false, docEmbeddings := none }, disk, none⟩
  else
    ⟨{ st with bm25Built := true, rerankerLoaded := st.modelName.isSome }, disk, none⟩

/-- `HybridLocator.build_index`.  Environment-dependent effects are
inputs: `dirHash` is `_compute_pdf_dir_hash(pdf_dir)`, `cachedDocs`
the pickle contents, `cachedMetaHash` the parsed `dir_hash` of the
metadata file (`none` when missing or unparseable), `extracted` the
(possibly partial, under cancellation) result of
`PDFIndexer.extract_all`, and `cancelSet` the value of
`cancel_event.is_set()` at the post-extraction checkpoint. -/
def buildIndex (st : LocState) (disk : DiskState) (force : Bool)
    (ocrMode0 : String) (ocrDpi : Nat) (cancelSet : Bool) (dirHash : String)
    (cachedDocs : List PageDocument) (cachedMetaHash : Option String)
    (extracted : List PageDocument) : BuildResult :=
  let ocrMode := normalizeOcrMode ocrMode0
  let key := indexCacheKey dirHash ocrMode ocrDpi
  if force = false ∧ disk.pkl.contains key then
    if cachedMetaHash = some dirHash then
      -- cache hit: load documents, then initialize retrievers
      finishInit { st with documents := cachedDocs } disk
    else
      -- stale cache: the source prints "rebuilding" but then falls
      -- through to the post-build initialization with `self.documents`
      -- unchanged (the fresh build sits in the `else` branch)
      finishInit st disk
  else
    -- fresh build: documents are assigned before the cancel check
    let st1 := { st with documents := extracted }
    if cancelSet then
      ⟨st1,
       ⟨disk.pkl.filter (fun k => k ≠ key), disk.meta.filter (fun k => k ≠ key)⟩,
       some "Indexing canceled"⟩
    else
      finishInit st1 ⟨disk.pkl.insert key, disk.meta.insert key⟩

/-- `HybridLocator.precompute_embeddings`.  The flag is checked at the
start of every batch, so under an observed (constant) signal the first
check fires; `emb` abstracts the stacked embedding matrix. -/
def precomputeEmbeddings (st : LocState) (cancelSet : Bool)
    (emb : List (List ℚ)) : LocState × Option String :=
  if st.rerankerLoaded = false then (st, none)
  else if st.documents.isEmpty then (st, none)
  else if cancelSet then
    ({ st with docEmbeddings := none, deepMode := false }, some "Indexing canceled")
  else
    ({ st with docEmbeddings := some emb, deepMode := true }, none)

/-- OCR invocation policy of `PDFIndexer._extract_pdf` (lines 342-351)
together with `__init__` (lines 261-266, `self.ocr is None` iff mode
"off"): whether OCR runs for a page with `hasImages` embedded images
and `strippedTextLen` directly-extracted characters. -/
def ocrInvoked (ocrMode : String) (hasImages : Bool) (strippedTextLen : Nat)
    (ocrAvailable : Bool) : Bool :=
  if ocrMode = "deep" then hasImages && ocrAvailable
  else if ocrMode = "fast" then
    hasImages && decide (strippedTextLen < 20) && ocrAvailable
  else false

/-! ### Analysis predicates and concrete test inputs -/

/-- First list is an initial segment of the second. -/
def ListPref {α : Type} (a b : List α) : Prop :=
  ∃ t, a ++ t = b

/-- First list is a final segment of the second. -/
def ListSuff {α : Type} (a b : List α) : Prop :=
  ∃ t, t ++ a = b

/-- Total token estimate of a chunker window. -/
def sumW (w : List (String × Nat)) : Nat :=
  (w.map Prod.snd).sum

/-- Overlap relation between two consecutive emitted chunker windows:
some final segment of the first window (of total estimate within the
overlap budget) survives eviction and heads the second window; it is
non-empty whenever the last unit of the first window fits the budget. -/
def overlapRel (w1 w2 : List (String × Nat)) : Prop :=
  ∃ s, ListSuff s w1 ∧ ListPref s w2 ∧ sumW s ≤ OVERLAP_TOKENS ∧
    (∀ p, w1.getLast? = some p → p.2 ≤ OVERLAP_TOKENS → s ≠ [])

/-- Largest per-unit token estimate of a unit list. -/
def maxUnitTok (units : List String) : Nat :=
  (units.map tokCount).foldr max 0

/-- A unit of `n` repetitions of the word `w`, space separated. -/
def repUnit (w : String) (n : Nat) : String :=
  pyJoin " " (List.replicate n w)

/-- Three-line page text whose middle chunk gets 80 overlap tokens plus
a 350-token unit: 430 tokens in one chunk, no unit above 400. -/
def c2text : String :=
  repUnit "cc" 80 ++ "\n" ++ repUnit "dd" 350 ++ "\n" ++ repUnit "ee" 10

/-- Two-line page text (units of 100 and 350 tokens) whose two chunks
share no unit: eviction of the 100-token unit empties the window. -/
def c3text : String :=
  repUnit "ff" 100 ++ "\n" ++ repUnit "gg" 350

/-- Three distinct lexical scores whose spread (5e-9) is positive but
below `eps`: normalization collapses them all to zero, erasing the raw
order. -/
def bmC8 : List ℚ :=
  [3 / 1000000000, 0, 5 / 1000000000]

def semC8 : List ℚ :=
  [0, 0, 0]

/-- 40 scores with spread 1 but percentile spread 5e-9 (below `eps`):
the source falls back to true min/max, not to the percentile map. -/
def vC9 : List ℚ :=
  List.replicate 38 0 ++ [1 / 10000000, 1]

/-! ## Theorems -/

/-- C10: `build_index` silently coerces any `ocr_mode` outside
fast/deep/off to "fast": the coerced mode, the cache key, the OCR
invocation policy, and the entire build result are identical to an
`ocr_mode="fast"` call, and no error is raised for the invalid mode. -/
theorem C10_invalid_ocr_mode_coerced_to_fast (m : String)
    (hm : m ≠ "fast" ∧ m ≠ "deep" ∧ m ≠ "off") :
    normalizeOcrMode m = "fast" ∧
    (∀ h dpi, indexCacheKey h (normalizeOcrMode m) dpi = indexCacheKey h "fast" dpi) ∧
    (∀ img len avail, ocrInvoked (normalizeOcrMode m) img len avail =
      ocrInvoked "fast" img len avail) ∧
    (∀ st disk force dpi cancel dh cd cmh ex,
      buildIndex st disk force m dpi cancel dh cd cmh ex =
        buildIndex st disk force "fast" dpi cancel dh cd cmh ex) := by
  obtain ⟨h1, h2, h3⟩ := hm
  have hnorm : normalizeOcrMode m = "fast" := by
    simp [normalizeOcrMode, h1, h2, h3]
  refine ⟨hnorm, fun h dpi => by rw [hnorm], fun img len avail => by rw [hnorm],
    fun st disk force dpi cancel dh cd cmh ex => ?_⟩
  unfold buildIndex
  rw [hnorm, show normalizeOcrMode "fast" = "fast" by simp [normalizeOcrMode]]

theorem C10_witness :
    ("banana" ≠ "fast" ∧ "banana" ≠ "deep" ∧ "banana" ≠ "off") ∧
    normalizeOcrMode "banana" = "fast" :=
  ⟨by decide,
   (C10_invalid_ocr_mode_coerced_to_fast "banana" (by decide)).1⟩

/-- C1: contrary to the claim, searching before any index is built does
NOT raise the "Index not built" precondition error: the
`not self.documents` early return (line 748) shadows the
`self.bm25 is None` check (line 750), and a never-built locator has
`documents == []`.  Every state with empty documents — never built or
built-but-empty alike — yields the same successful empty outcome
`([], False)`, so the two situations are not distinguished. -/
theorem C1_search_before_build_returns_empty (st : LocState)
    (lex : List (PageDocument × ℚ)) (scores : List ℚ)
    (sampler : List (PageDocument × ℚ) → List (PageDocument × ℚ)) (bias : ℚ)
    (hdocs : st.documents = []) :
    searchStage st lex scores sampler bias =
      ⟨none, [], bias, false⟩ := by
  simp [searchStage, hdocs]

theorem C1_witness :
    (initState (some "BAAI/bge-small-en-v1.5")).documents = [] ∧
    (initState (some "BAAI/bge-small-en-v1.5")).bm25Built = false ∧
    searchStage (initState (some "BAAI/bge-small-en-v1.5")) [] [] id 0 =
      ⟨none, [], 0, false⟩ :=
  ⟨rfl, rfl,
   C1_search_before_build_returns_empty (initState (some "BAAI/bge-small-en-v1.5"))
     [] [] id 0 rfl⟩

/-- C5: when the cancellation flag is observed during a fresh index
build, `build_index` raises the distinguished "Indexing canceled"
condition, deletes the cache and metadata files for that build's key,
and initializes no retriever (`self.bm25` is untouched); when it is
observed during deep-mode embedding precomputation, the operation
raises the same condition after clearing `doc_embeddings` and
`deep_mode`. -/
theorem C5_cancellation_cleanup (st : LocState) (disk : DiskState) (force : Bool)
    (mode : String) (dpi : Nat) (dirHash : String) (cd : List PageDocument)
    (cmh : Option String) (extracted : List PageDocument)
    (st2 : LocState) (emb : List (List ℚ))
    (hfresh : force = true ∨
      indexCacheKey dirHash (normalizeOcrMode mode) dpi ∉ disk.pkl)
    (hr : st2.rerankerLoaded = true) (hd : st2.documents ≠ []) :
    (buildIndex st disk force mode dpi true dirHash cd cmh extracted).err =
      some "Indexing canceled" ∧
    indexCacheKey dirHash (normalizeOcrMode mode) dpi ∉
      (buildIndex st disk force mode dpi true dirHash cd cmh extracted).disk.pkl ∧
    indexCacheKey dirHash (normalizeOcrMode mode) dpi ∉
      (buildIndex st disk force mode dpi true dirHash cd cmh extracted).disk.meta ∧
    (buildIndex st disk force mode dpi true dirHash cd cmh extracted).st.bm25Built =
      st.bm25Built ∧
    (buildIndex st disk force mode dpi true dirHash cd cmh extracted).st.docEmbeddings =
      st.docEmbeddings ∧
    (precomputeEmbeddings st2 true emb).2 = some "Indexing canceled" ∧
    (precomputeEmbeddings st2 true emb).1.docEmbeddings = none ∧
    (precomputeEmbeddings st2 true emb).1.deepMode = false := by
  have hcond : ¬(force = false ∧
      indexCacheKey dirHash (normalizeOcrMode mode) dpi ∈ disk.pkl) := by
    rintro ⟨hc1, hc2⟩
    rcases hfresh with h | h
    · rw [h] at hc1; cases hc1
    · exact h hc2
  have hde : st2.documents.isEmpty = false := by
    cases h : st2.documents with
    | nil => exact absurd h hd
    | cons a l => rfl
  refine ⟨?_, ?_, ?_, ?_, ?_, ?_, ?_, ?_⟩ <;>
    simp [buildIndex, hcond, precomputeEmbeddings, hr, hde, List.mem_filter]

theorem C5_witness :
    (true = true ∨ indexCacheKey "h" (normalizeOcrMode "fast") 200 ∉
      (DiskState.mk ["x"] ["x"]).pkl) ∧
    (LocState.mk none [⟨"a.pdf", 1, "hello", 1⟩] false true none false).rerankerLoaded
      = true ∧
    (LocState.mk none [⟨"a.pdf", 1, "hello", 1⟩] false true none false).documents ≠ [] ∧
    (buildIndex (initState none) ⟨["x"], ["x"]⟩ true "fast" 200 true "h" [] none []).err =
      some "Indexing canceled" ∧
    (precomputeEmbeddings
      (LocState.mk none [⟨"a.pdf", 1, "hello", 1⟩] false true none false) true []).2 =
      some "Indexing canceled" :=
  ⟨Or.inl rfl, rfl, by decide,
   (C5_cancellation_cleanup (initState none) ⟨["x"], ["x"]⟩ true "fast" 200 "h" [] none []
      (LocState.mk none [⟨"a.pdf", 1, "hello", 1⟩] false true none false) []
      (Or.inl rfl) rfl (by decide)).1,
   (C5_cancellation_cleanup (initState none) ⟨["x"], ["x"]⟩ true "fast" 200 "h" [] none []
      (LocState.mk none [⟨"a.pdf", 1, "hello", 1⟩] false true none false) []
      (Or.inl rfl) rfl (by decide)).2.2.2.2.2.1⟩

/-! ### Percentile normalization lemmas (C9) -/

theorem listMinQ_le (l : List ℚ) : ∀ x ∈ l, listMinQ l ≤ x := by
  induction l with
  | nil => simp
  | cons a t ih =>
    intro x hx
    cases t with
    | nil =>
      rcases List.mem_cons.1 hx with h | h
      · subst h; exact le_refl _
      · cases h
    | cons b u =>
      have hunf : listMinQ (a :: b :: u) = min a (listMinQ (b :: u)) := rfl
      rcases List.mem_cons.1 hx with h | h
      · subst h; rw [hunf]; exact min_le_left _ _
      · rw [hunf]; exact le_trans (min_le_right _ _) (ih x h)

theorem le_listMaxQ (l : List ℚ) : ∀ x ∈ l, x ≤ listMaxQ l := by
  induction l with
  | nil => simp
  | cons a t ih =>
    intro x hx
    cases t with
    | nil =>
      rcases List.mem_cons.1 hx with h | h
      · subst h; exact le_refl _
      · cases h
    | cons b u =>
      have hunf : listMaxQ (a :: b :: u) = max a (listMaxQ (b :: u)) := rfl
      rcases List.mem_cons.1 hx with h | h
      · subst h; rw [hunf]; exact le_max_left _ _
      · rw [hunf]; exact le_trans (ih x h) (le_max_right _ _)

/-- Every output of the source's normalization lies in [0,1]. -/
theorem percentileNormalize_mem_unit (scores : List ℚ) :
    ∀ y ∈ percentileNormalize scores, 0 ≤ y ∧ y ≤ 1 := by
  have hminmax : ∀ x ∈ scores, EPS ≤ listMaxQ scores - listMinQ scores →
      0 ≤ (x - listMinQ scores) / (listMaxQ scores - listMinQ scores) ∧
      (x - listMinQ scores) / (listMaxQ scores - listMinQ scores) ≤ 1 := by
    intro x hx hsp
    have hpos : 0 < listMaxQ scores - listMinQ scores :=
      lt_of_lt_of_le (by norm_num [EPS]) hsp
    constructor
    · exact div_nonneg (sub_nonneg.2 (listMinQ_le scores x hx)) (le_of_lt hpos)
    · rw [div_le_one hpos]
      exact sub_le_sub_right (le_listMaxQ scores x hx) _
  intro y hy
  unfold percentileNormalize at hy
  by_cases h0 : scores.length = 0
  · rw [List.length_eq_zero] at h0
    subst h0; simp at hy
  · rw [if_neg h0] at hy
    by_cases h20 : scores.length < 20
    · rw [if_pos h20] at hy
      by_cases hsp : listMaxQ scores - listMinQ scores < EPS
      · rw [if_pos hsp] at hy
        rcases List.mem_map.1 hy with ⟨x, _, hxy⟩
        subst hxy; norm_num
      · rw [if_neg hsp] at hy
        rcases List.mem_map.1 hy with ⟨x, hx, hxy⟩
        subst hxy; exact hminmax x hx (not_lt.1 hsp)
    · rw [if_neg h20] at hy
      by_cases hp : percentile scores 95 - percentile scores 5 < EPS
      · rw [if_pos hp] at hy
        by_cases hsp : listMaxQ scores - listMinQ scores < EPS
        · rw [if_pos hsp] at hy
          rcases List.mem_map.1 hy with ⟨x, _, hxy⟩
          subst hxy; norm_num
        · rw [if_neg hsp] at hy
          rcases List.mem_map.1 hy with ⟨x, hx, hxy⟩
          subst hxy; exact hminmax x hx (not_lt.1 hsp)
      · rw [if_neg hp] at hy
        rcases List.mem_map.1 hy with ⟨x, _, hxy⟩
        subst hxy
        constructor
        · exact le_min (le_max_right _ _) (by norm_num)
        · exact min_le_right _ _

theorem listMinQ_mem (l : List ℚ) (h : l ≠ []) : listMinQ l ∈ l := by
  induction l with
  | nil => cases h rfl
  | cons a t ih =>
    cases t with
    | nil => simp [listMinQ]
    | cons b u =>
      have hunf : listMinQ (a :: b :: u) = min a (listMinQ (b :: u)) := rfl
      rw [hunf]
      rcases min_cases a (listMinQ (b :: u)) with ⟨he, _⟩ | ⟨he, _⟩
      · rw [he]; exact List.mem_cons_self _ _
      · rw [he]; exact List.mem_cons_of_mem _ (ih (by simp))

theorem listMaxQ_mem (l : List ℚ) (h : l ≠ []) : listMaxQ l ∈ l := by
  induction l with
  | nil => cases h rfl
  | cons a t ih =>
    cases t with
    | nil => simp [listMaxQ]
    | cons b u =>
      have hunf : listMaxQ (a :: b :: u) = max a (listMaxQ (b :: u)) := rfl
      rw [hunf]
      rcases max_cases a (listMaxQ (b :: u)) with ⟨he, _⟩ | ⟨he, _⟩
      · rw [he]; exact List.mem_cons_self _ _
      · rw [he]; exact List.mem_cons_of_mem _ (ih (by simp))

/-- Insertion into a list that is already everywhere ≥ the element
puts it in front; hence sorting a sorted list is the identity. -/
theorem insertQ_front (x : ℚ) (l : List ℚ) (h : ∀ y ∈ l, x ≤ y) :
    insertQ x l = x :: l := by
  cases l with
  | nil => rfl
  | cons y ys => simp [insertQ, h y (List.mem_cons_self _ _)]

theorem sortQ_sorted_id (l : List ℚ) (h : l.Pairwise (· ≤ ·)) :
    sortQ l = l := by
  induction l with
  | nil => rfl
  | cons a t ih =>
    have hhead := List.pairwise_cons.1 h
    have : sortQ (a :: t) = insertQ a (sortQ t) := rfl
    rw [this, ih hhead.2, insertQ_front a t hhead.1]

theorem vC9_sorted : sortQ vC9 = vC9 := by
  apply sortQ_sorted_id
  unfold vC9
  rw [List.pairwise_append]
  refine ⟨List.pairwise_replicate.2 (Or.inr (le_refl 0)), ?_, ?_⟩
  · constructor
    · intro b hb
      simp only [List.mem_singleton] at hb
      rw [hb]; norm_num
    · simp
  · intro x hx y hy
    rw [List.mem_replicate] at hx
    rcases List.mem_cons.1 hy with h | h
    · rw [hx.2, h]; norm_num
    · simp only [List.mem_singleton] at h
      rw [hx.2, h]; norm_num

theorem vC9_mem_cases (x : ℚ) (hx : x ∈ vC9) :
    x = 0 ∨ x = 1 / 10000000 ∨ x = 1 := by
  unfold vC9 at hx
  rcases List.mem_append.1 hx with h | h
  · exact Or.inl (List.mem_replicate.1 h).2
  · rcases List.mem_cons.1 h with h | h
    · exact Or.inr (Or.inl h)
    · simp only [List.mem_singleton] at h
      exact Or.inr (Or.inr h)

theorem vC9_min : listMinQ vC9 = 0 := by
  have h1 : (0 : ℚ) ∈ vC9 := by
    unfold vC9
    exact List.mem_append.2 (Or.inl (List.mem_replicate.2 ⟨by norm_num, rfl⟩))
  have h2 := listMinQ_le vC9 0 h1
  have h3 := listMinQ_mem vC9 (by unfold vC9; simp)
  rcases vC9_mem_cases _ h3 with h | h | h
  · exact h
  · rw [h] at h2 ⊢; linarith
  · rw [h] at h2 ⊢; linarith

theorem vC9_max : listMaxQ vC9 = 1 := by
  have h1 : (1 : ℚ) ∈ vC9 := by
    unfold vC9
    exact List.mem_append.2 (Or.inr (by simp))
  have h2 := le_listMaxQ vC9 1 h1
  have h3 := listMaxQ_mem vC9 (by unfold vC9; simp)
  rcases vC9_mem_cases _ h3 with h | h | h
  · rw [h] at h2 ⊢; linarith
  · rw [h] at h2 ⊢; linarith
  · exact h

/-- Let-free form of `percentile`. -/
theorem percentile_explicit (scores : List ℚ) (q : ℚ) :
    percentile scores q =
      (sortQ scores).getD (⌊((sortQ scores).length - 1 : ℚ) * q / 100⌋).toNat 0 +
        (((sortQ scores).length - 1 : ℚ) * q / 100 -
          ((⌊((sortQ scores).length - 1 : ℚ) * q / 100⌋).toNat : ℚ)) *
          ((sortQ scores).getD ((⌊((sortQ scores).length - 1 : ℚ) * q / 100⌋).toNat + 1)
              ((sortQ scores).getD (⌊((sortQ scores).length - 1 : ℚ) * q / 100⌋).toNat 0) -
            (sortQ scores).getD (⌊((sortQ scores).length - 1 : ℚ) * q / 100⌋).toNat 0) :=
  rfl

theorem vC9_elem_37 : vC9[37]? = some (0 : ℚ) := by
  unfold vC9
  simp [List.getElem?_append, List.getElem?_replicate]

theorem vC9_elem_38 : vC9[38]? = some ((1 : ℚ) / 10000000) := by
  unfold vC9
  simp [List.getElem?_append, List.getElem?_replicate]

theorem vC9_p95 : percentile vC9 95 = 1 / 200000000 := by
  rw [percentile_explicit, vC9_sorted]
  have hlen : ((vC9.length : ℚ) - 1) * 95 / 100 = 3705 / 100 := by
    norm_num [vC9]
  rw [hlen]
  have hfloor : ⌊(3705 / 100 : ℚ)⌋ = 37 := by
    rw [Int.floor_eq_iff]
    norm_num
  rw [hfloor, show ((37 : ℤ).toNat) = 37 from rfl]
  norm_num [vC9_elem_37, vC9_elem_38]

theorem vC9_elem_1 : vC9[1]? = some (0 : ℚ) := by
  unfold vC9
  simp [List.getElem?_append, List.getElem?_replicate]

theorem vC9_elem_2 : vC9[2]? = some (0 : ℚ) := by
  unfold vC9
  simp [List.getElem?_append, List.getElem?_replicate]

theorem vC9_p5 : percentile vC9 5 = 0 := by
  rw [percentile_explicit, vC9_sorted]
  have hlen : ((vC9.length : ℚ) - 1) * 5 / 100 = 39 / 20 := by
    norm_num [vC9]
  rw [hlen]
  have hfloor : ⌊(39 / 20 : ℚ)⌋ = 1 := by
    rw [Int.floor_eq_iff]
    norm_num
  rw [hfloor, show ((1 : ℤ).toNat) = 1 from rfl]
  norm_num [vC9_elem_1, vC9_elem_2]

/-- C9 counterexample: on `vC9` (forty scores, spread 1, percentile
spread 5e-9 which is below `eps`) the source's normalization falls back
to true min/max while the claim's description demands the percentile
map (the distribution has spread and at least 20 members); the outputs
differ at index 38. -/
theorem C9_counterexample :
    percentileNormalize vC9 ≠ percentileNormalizeSpec vC9 := by
  have hlen : vC9.length = 40 := by norm_num [vC9]
  have hcode : percentileNormalize vC9 = vC9.map (fun x => (x - 0) / (1 - 0)) := by
    unfold percentileNormalize
    rw [if_neg (by omega), if_neg (by omega), vC9_p95, vC9_p5, vC9_min, vC9_max,
      if_pos (by norm_num [EPS]), if_neg (by norm_num [EPS])]
  have hspec : percentileNormalizeSpec vC9 =
      vC9.map (fun x => clip01 ((x - 0) / (1 / 200000000 - 0))) := by
    unfold percentileNormalizeSpec
    rw [vC9_min, vC9_max, vC9_p95, vC9_p5, if_neg (by omega),
      if_neg (by norm_num), if_neg (by omega)]
  intro heq
  rw [hcode, hspec] at heq
  have h38 := congrArg (fun l => l.getD 38 (37 : ℚ)) heq
  simp only [List.getD_eq_getElem?_getD, List.getElem?_map] at h38
  rw [vC9_elem_38] at h38
  simp only [Option.map_some', Option.getD_some] at h38
  rw [show clip01 ((1 / 10000000 - 0 : ℚ) / (1 / 200000000 - 0)) = 1 by
    norm_num [clip01, min_def, max_def]] at h38
  norm_num at h38

/-- C9 amended: percentile-blend normalization maps each distribution
into [0,1]; it uses the 5th/95th percentile as robust min/max only
when the set has at least 20 members AND the percentile spread is at
least `eps` (1e-8); it falls back to true min/max when the set has
fewer than 20 members or the percentile spread is below `eps`, and to
an all-zero vector when the full spread is below `eps`; the blend's
combined score is `(1-bias)*semantic_normalized +
bias*lexical_normalized`. -/
theorem C9_percentile_blend_description (scores sem bm : List ℚ) (w : ℚ) :
    (scores.length = 0 → percentileNormalize scores = scores) ∧
    (scores.length ≠ 0 → scores.length < 20 →
      listMaxQ scores - listMinQ scores < EPS →
      percentileNormalize scores = scores.map (fun _ => 0)) ∧
    (scores.length ≠ 0 → scores.length < 20 →
      EPS ≤ listMaxQ scores - listMinQ scores →
      percentileNormalize scores =
        scores.map (fun x =>
          (x - listMinQ scores) / (listMaxQ scores - listMinQ scores))) ∧
    (20 ≤ scores.length →
      EPS ≤ percentile scores 95 - percentile scores 5 →
      percentileNormalize scores =
        scores.map (fun x =>
          clip01 ((x - percentile scores 5) /
            (percentile scores 95 - percentile scores 5)))) ∧
    (20 ≤ scores.length →
      percentile scores 95 - percentile scores 5 < EPS →
      EPS ≤ listMaxQ scores - listMinQ scores →
      percentileNormalize scores =
        scores.map (fun x =>
          (x - listMinQ scores) / (listMaxQ scores - listMinQ scores))) ∧
    (20 ≤ scores.length →
      percentile scores 95 - percentile scores 5 < EPS →
      listMaxQ scores - listMinQ scores < EPS →
      percentileNormalize scores = scores.map (fun _ => 0)) ∧
    (∀ y ∈ percentileNormalize scores, 0 ≤ y ∧ y ≤ 1) ∧
    blendCombined sem bm w =
      List.zipWith (fun s b => (1 - w) * s + w * b)
        (percentileNormalize sem) (percentileNormalize bm) := by
  refine ⟨?_, ?_, ?_, ?_, ?_, ?_, percentileNormalize_mem_unit scores, rfl⟩
  · intro h0
    simp [percentileNormalize, h0]
  · intro h0 h20 hsp
    simp [percentileNormalize, h0, h20, hsp]
  · intro h0 h20 hsp
    simp [percentileNormalize, h0, h20, not_lt.2 hsp]
  · intro h20 hp
    have h0 : ¬scores.length = 0 := by omega
    have h20n : ¬scores.length < 20 := by omega
    simp [percentileNormalize, h0, h20n, not_lt.2 hp]
  · intro h20 hp hsp
    have h0 : ¬scores.length = 0 := by omega
    have h20n : ¬scores.length < 20 := by omega
    simp [percentileNormalize, h0, h20n, hp, not_lt.2 hsp]
  · intro h20 hp hsp
    have h0 : ¬scores.length = 0 := by omega
    have h20n : ¬scores.length < 20 := by omega
    simp [percentileNormalize, h0, h20n, hp, hsp]

theorem C9_witness :
    ([(0 : ℚ), 1].length ≠ 0 ∧ [(0 : ℚ), 1].length < 20 ∧
      EPS ≤ listMaxQ [(0 : ℚ), 1] - listMinQ [(0 : ℚ), 1]) ∧
    percentileNormalize [(0 : ℚ), 1] =
      [(0 : ℚ), 1].map (fun x =>
        (x - listMinQ [(0 : ℚ), 1]) /
          (listMaxQ [(0 : ℚ), 1] - listMinQ [(0 : ℚ), 1])) :=
  ⟨⟨by decide, by decide, by norm_num [listMaxQ, listMinQ, max_def, min_def, EPS]⟩,
   (C9_percentile_blend_description [(0 : ℚ), 1] [] [] 0).2.2.1
     (by decide) (by decide)
     (by norm_num [listMaxQ, listMinQ, max_def, min_def, EPS])⟩

/-! ### Sorting lemmas (C6, C7, C8) -/

theorem insertAsc_perm (p : Nat × ℚ) (l : List (Nat × ℚ)) :
    List.Perm (insertAsc p l) (p :: l) := by
  induction l with
  | nil => exact List.Perm.refl _
  | cons q qs ih =>
    unfold insertAsc
    by_cases h : p.2 ≤ q.2
    · rw [if_pos h]
    · rw [if_neg h]
      exact (List.Perm.cons q ih).trans (List.Perm.swap p q qs)

theorem sortPairs_perm (l : List (Nat × ℚ)) : List.Perm (sortPairs l) l := by
  induction l with
  | nil => exact List.Perm.refl _
  | cons p t ih =>
    exact (insertAsc_perm p (sortPairs t)).trans (List.Perm.cons p ih)

theorem insertAsc_pairwise (p : Nat × ℚ) (l : List (Nat × ℚ))
    (h : l.Pairwise (fun a b => a.2 ≤ b.2)) :
    (insertAsc p l).Pairwise (fun a b => a.2 ≤ b.2) := by
  induction l with
  | nil => simp [insertAsc]
  | cons q qs ih =>
    rcases List.pairwise_cons.1 h with ⟨hq, hqs⟩
    unfold insertAsc
    by_cases hpq : p.2 ≤ q.2
    · rw [if_pos hpq]
      refine List.pairwise_cons.2 ⟨?_, h⟩
      intro b hb
      rcases List.mem_cons.1 hb with hb | hb
      · rw [hb]; exact hpq
      · exact le_trans hpq (hq b hb)
    · rw [if_neg hpq]
      refine List.pairwise_cons.2 ⟨?_, ih hqs⟩
      intro b hb
      have hmem := (insertAsc_perm p qs).subset hb
      rcases List.mem_cons.1 hmem with hb2 | hb2
      · rw [hb2]; exact le_of_lt (lt_of_not_le hpq)
      · exact hq b hb2

theorem sortPairs_pairwise (l : List (Nat × ℚ)) :
    (sortPairs l).Pairwise (fun a b => a.2 ≤ b.2) := by
  induction l with
  | nil => simp [sortPairs]
  | cons p t ih => exact insertAsc_pairwise p _ ih

/-- Every pair in the sorted enumeration looks its score up correctly. -/
theorem sortPairs_enum_lookup (scores : List ℚ) (p : Nat × ℚ)
    (hp : p ∈ sortPairs scores.enum) : scores[p.1]? = some p.2 := by
  have hmem : p ∈ scores.enum := (sortPairs_perm scores.enum).subset hp
  exact List.mem_enum_iff_getElem?.1 hmem

theorem filterMap_lookup_eq_filter (scores : List ℚ) (Q : List (Nat × ℚ))
    (hQ : ∀ p ∈ Q, scores[p.1]? = some p.2) :
    (Q.map Prod.fst).filterMap (fun i =>
      match scores[i]? with
      | some s => if 0 < s then some (i, s) else none
      | none => (none : Option (Nat × ℚ))) = Q.filter (fun p => decide (0 < p.2)) := by
  induction Q with
  | nil => rfl
  | cons p t ih =>
    have hp := hQ p (List.mem_cons_self _ _)
    have ht := ih (fun q hq => hQ q (List.mem_cons_of_mem _ hq))
    simp only [List.map_cons, List.filterMap_cons, List.filter_cons, hp]
    by_cases hpos : 0 < p.2
    · rw [if_pos hpos, ht]
      simp [hpos]
    · rw [if_neg hpos, ht]
      simp [hpos]

/-- The selected (index, score) pairs of `bm25Select` are exactly the
positive-score entries of the descending prefix of the sorted
enumeration. -/
theorem bm25Select_eq_filter (scores : List ℚ) (k : Nat) :
    bm25Select scores k =
      ((sortPairs scores.enum).reverse.take k).filter (fun p => decide (0 < p.2)) := by
  unfold bm25Select argsortAsc
  rw [← List.map_reverse, ← List.map_take]
  apply filterMap_lookup_eq_filter
  intro p hp
  exact sortPairs_enum_lookup scores p
    ((List.mem_reverse.1 ((List.take_sublist _ _).subset hp)))

/-- C6 counterexample: two tied positive scores.  The selection keeps
both with equal scores, so the returned scores are NOT strictly
descending. -/
theorem C6_counterexample :
    bm25Select [(1 : ℚ), 1] 2 = [((1 : ℕ), (1 : ℚ)), ((0 : ℕ), (1 : ℚ))] ∧
    ¬ ((bm25Select [(1 : ℚ), 1] 2).map Prod.snd).Chain' (fun a b => b < a) := by
  have heval : bm25Select [(1 : ℚ), 1] 2 = [((1 : ℕ), (1 : ℚ)), ((0 : ℕ), (1 : ℚ))] := by
    decide
  refine ⟨heval, ?_⟩
  rw [heval]
  simp only [List.map_cons, List.map_nil, List.chain'_cons, List.chain'_singleton,
    and_true]
  norm_num

/-- C6 amended: for every score vector and every k, the lexical
selection returns at most k (index, score) pairs, each score positive
(zero-score chunks are filtered out, not merely cut by top-k) and
correctly attached to its document, in non-increasing score order;
strict descent fails when scores tie. -/
theorem C6_bm25_selection (scores : List ℚ) (k : Nat) :
    (bm25Select scores k).length ≤ k ∧
    (∀ p ∈ bm25Select scores k, 0 < p.2 ∧ scores[p.1]? = some p.2) ∧
    ((bm25Select scores k).map Prod.snd).Chain' (fun a b => b ≤ a) := by
  rw [bm25Select_eq_filter]
  refine ⟨?_, ?_, ?_⟩
  · exact le_trans (List.length_filter_le _ _)
      (List.length_take_le k (sortPairs scores.enum).reverse)
  · intro p hp
    rcases List.mem_filter.1 hp with ⟨hmem, hpos⟩
    refine ⟨of_decide_eq_true hpos, ?_⟩
    exact sortPairs_enum_lookup scores p
      (List.mem_reverse.1 ((List.take_sublist _ _).subset hmem))
  · apply List.Pairwise.chain'
    rw [List.pairwise_map]
    have h1 : ((sortPairs scores.enum).reverse).Pairwise (fun a b => b.2 ≤ a.2) := by
      rw [List.pairwise_reverse]
      exact sortPairs_pairwise scores.enum
    exact ((h1.sublist (List.take_sublist _ _)).sublist (List.filter_sublist _))

theorem C6_witness :
    ((0, (2 : ℚ)) ∈ bm25Select [(2 : ℚ), 1] 2) ∧
    (0 < (2 : ℚ) ∧ [(2 : ℚ), 1][0]? = some 2) :=
  ⟨by decide,
   (C6_bm25_selection [(2 : ℚ), 1] 2).2.1 (0, 2) (by decide)⟩

/-! ### Order-isomorphism invariance of argsort (C7, C8) -/

theorem insertAsc_map_mono (f : ℚ → ℚ) (hf : ∀ x y : ℚ, x ≤ y ↔ f x ≤ f y)
    (p : Nat × ℚ) (l : List (Nat × ℚ)) :
    insertAsc (p.1, f p.2) (l.map (fun q => (q.1, f q.2))) =
      (insertAsc p l).map (fun q => (q.1, f q.2)) := by
  induction l with
  | nil => rfl
  | cons q qs ih =>
    simp only [List.map_cons, insertAsc]
    by_cases h : p.2 ≤ q.2
    · rw [if_pos h, if_pos ((hf _ _).1 h)]
      simp
    · rw [if_neg h, if_neg (fun hc => h ((hf _ _).2 hc))]
      rw [List.map_cons, ih]

theorem sortPairs_map_mono (f : ℚ → ℚ) (hf : ∀ x y : ℚ, x ≤ y ↔ f x ≤ f y)
    (l : List (Nat × ℚ)) :
    sortPairs (l.map (fun q => (q.1, f q.2))) =
      (sortPairs l).map (fun q => (q.1, f q.2)) := by
  induction l with
  | nil => rfl
  | cons p t ih =>
    show insertAsc (p.1, f p.2) (sortPairs (t.map _)) =
      (insertAsc p (sortPairs t)).map _
    rw [ih]
    exact insertAsc_map_mono f hf p (sortPairs t)

/-- `np.argsort` depends only on the order structure of the scores: a
strictly monotone transform leaves it unchanged. -/
theorem argsortAsc_map_mono (f : ℚ → ℚ) (hf : ∀ x y : ℚ, x ≤ y ↔ f x ≤ f y)
    (scores : List ℚ) :
    argsortAsc (scores.map f) = argsortAsc scores := by
  unfold argsortAsc
  rw [List.enum_map]
  have hmap : scores.enum.map (Prod.map id f) =
      scores.enum.map (fun q => (q.1, f q.2)) := rfl
  rw [hmap, sortPairs_map_mono f hf, List.map_map]
  rfl

theorem rankPos_map_mono (f : ℚ → ℚ) (hf : ∀ x y : ℚ, x ≤ y ↔ f x ≤ f y)
    (scores : List ℚ) (i : Nat) :
    rankPos (scores.map f) i = rankPos scores i := by
  unfold rankPos
  rw [argsortAsc_map_mono f hf]

theorem rrfCombined_map_left (f : ℚ → ℚ) (hf : ∀ x y : ℚ, x ≤ y ↔ f x ≤ f y)
    (sem bm : List ℚ) :
    rrfCombined (sem.map f) bm = rrfCombined sem bm := by
  unfold rrfCombined
  rw [List.length_map]
  have hfun : (fun i => 1 / (60 + (rankPos (sem.map f) i : ℚ)) +
      1 / (60 + (rankPos bm i : ℚ))) =
      (fun i => 1 / (60 + (rankPos sem i : ℚ)) + 1 / (60 + (rankPos bm i : ℚ))) := by
    funext i
    rw [rankPos_map_mono f hf]
  rw [hfun]

theorem rrfCombined_map_right (f : ℚ → ℚ) (hf : ∀ x y : ℚ, x ≤ y ↔ f x ≤ f y)
    (sem bm : List ℚ) :
    rrfCombined sem (bm.map f) = rrfCombined sem bm := by
  unfold rrfCombined
  have hfun : (fun i => 1 / (60 + (rankPos sem i : ℚ)) +
      1 / (60 + (rankPos (bm.map f) i : ℚ))) =
      (fun i => 1 / (60 + (rankPos sem i : ℚ)) + 1 / (60 + (rankPos bm i : ℚ))) := by
    funext i
    rw [rankPos_map_mono f hf]
  rw [hfun]

/-- C7: the RRF result ordering is invariant under any positive affine
rescaling `x ↦ a*x + b` (a > 0) of either score distribution — only
the ranks enter the combined score `1/(60+sem_rank) + 1/(60+bm_rank)`. -/
theorem C7_rrf_affine_invariance (sem bm : List ℚ) (k : Nat) (a b : ℚ)
    (ha : 0 < a) :
    rrfOrder (sem.map (fun x => a * x + b)) bm k = rrfOrder sem bm k ∧
    rrfOrder sem (bm.map (fun x => a * x + b)) k = rrfOrder sem bm k := by
  have hf : ∀ x y : ℚ, x ≤ y ↔ a * x + b ≤ a * y + b := by
    intro x y
    constructor
    · intro h
      have := mul_le_mul_of_nonneg_left h (le_of_lt ha)
      linarith
    · intro h
      have h2 : a * x ≤ a * y := by linarith
      exact le_of_mul_le_mul_left h2 ha
  constructor
  · unfold rrfOrder
    rw [rrfCombined_map_left _ hf]
  · unfold rrfOrder
    rw [rrfCombined_map_right _ hf]

theorem C7_witness :
    0 < (2 : ℚ) ∧
    rrfOrder ([(1 : ℚ), 7].map (fun x => 2 * x + 3)) [(5 : ℚ), 2] 2 =
      rrfOrder [(1 : ℚ), 7] [(5 : ℚ), 2] 2 :=
  ⟨by norm_num,
   (C7_rrf_affine_invariance [(1 : ℚ), 7] [(5 : ℚ), 2] 2 2 3 (by norm_num)).1⟩

/-! ### Percentile-blend ordering at extreme bias (C8) -/

theorem percentileNormalize_length (l : List ℚ) :
    (percentileNormalize l).length = l.length := by
  unfold percentileNormalize
  split_ifs <;> simp
  all_goals (split_ifs <;> simp)

theorem insertAsc_front (p : Nat × ℚ) (l : List (Nat × ℚ))
    (h : ∀ q ∈ l, p.2 ≤ q.2) : insertAsc p l = p :: l := by
  cases l with
  | nil => rfl
  | cons q qs => simp [insertAsc, h q (List.mem_cons_self _ _)]

theorem sortPairs_sorted_id (l : List (Nat × ℚ))
    (h : l.Pairwise (fun a b => a.2 ≤ b.2)) : sortPairs l = l := by
  induction l with
  | nil => rfl
  | cons p t ih =>
    rcases List.pairwise_cons.1 h with ⟨hp, ht⟩
    show insertAsc p (sortPairs t) = p :: t
    rw [ih ht]
    exact insertAsc_front p t hp

theorem argsortAsc_of_constant (l : List ℚ) (c : ℚ) (h : ∀ x ∈ l, x = c) :
    argsortAsc l = List.range l.length := by
  unfold argsortAsc
  rw [sortPairs_sorted_id _ ?_, List.enum_map_fst]
  apply List.pairwise_of_forall_mem_list
  intro p hp q hq
  have hp2 : p.2 ∈ l := List.getElem?_mem (List.mem_enum_iff_getElem?.1 hp)
  have hq2 : q.2 ∈ l := List.getElem?_mem (List.mem_enum_iff_getElem?.1 hq)
  rw [h p.2 hp2, h q.2 hq2]

theorem all_eq_of_spread_eq_zero (l : List ℚ)
    (h : listMaxQ l - listMinQ l = 0) : ∀ x ∈ l, x = listMinQ l := by
  intro x hx
  have h1 := listMinQ_le l x hx
  have h2 := le_listMaxQ l x hx
  have h3 : listMaxQ l = listMinQ l := by linarith
  linarith

/-- On a small candidate set whose spread is zero or at least `eps`,
normalization preserves the argsort. -/
theorem argsortAsc_percentileNormalize (l : List ℚ) (hn : l.length < 20)
    (hsp : listMaxQ l - listMinQ l = 0 ∨ EPS ≤ listMaxQ l - listMinQ l) :
    argsortAsc (percentileNormalize l) = argsortAsc l := by
  by_cases h0 : l.length = 0
  · rw [List.length_eq_zero] at h0
    subst h0; rfl
  rcases hsp with hz | hs
  · have hc := all_eq_of_spread_eq_zero l hz
    have hnorm : percentileNormalize l = l.map (fun _ => 0) := by
      unfold percentileNormalize
      rw [if_neg h0, if_pos hn, if_pos (by rw [hz]; norm_num [EPS])]
    rw [hnorm,
      argsortAsc_of_constant (l.map fun _ => 0) 0 ?_,
      argsortAsc_of_constant l (listMinQ l) hc, List.length_map]
    intro x hx
    rcases List.mem_map.1 hx with ⟨y, _, hy⟩
    exact hy.symm
  · have hpos : 0 < listMaxQ l - listMinQ l :=
      lt_of_lt_of_le (by norm_num [EPS]) hs
    have hnorm : percentileNormalize l =
        l.map (fun x => (x - listMinQ l) / (listMaxQ l - listMinQ l)) := by
      unfold percentileNormalize
      rw [if_neg h0, if_pos hn, if_neg (not_lt.2 hs)]
    rw [hnorm, argsortAsc_map_mono _ ?_]
    intro x y
    rw [div_le_div_iff_of_pos_right hpos, sub_le_sub_iff_right]

theorem zipWith_bias_one (as bs : List ℚ) (h : as.length = bs.length) :
    List.zipWith (fun s b => (1 - (1 : ℚ)) * s + 1 * b) as bs = bs := by
  induction as generalizing bs with
  | nil =>
    cases bs with
    | nil => rfl
    | cons b t => simp at h
  | cons a t ih =>
    cases bs with
    | nil => simp at h
    | cons b u =>
      simp only [List.zipWith_cons_cons]
      rw [ih u (by simpa using h)]
      norm_num

theorem zipWith_bias_zero (as bs : List ℚ) (h : as.length = bs.length) :
    List.zipWith (fun s b => (1 - (0 : ℚ)) * s + 0 * b) as bs = as := by
  induction as generalizing bs with
  | nil =>
    cases bs with
    | nil => rfl
    | cons b t => simp at h
  | cons a t ih =>
    cases bs with
    | nil => simp at h
    | cons b u =>
      simp only [List.zipWith_cons_cons]
      rw [ih u (by simpa using h)]
      norm_num

/-- C8 counterexample: three distinct lexical scores within a 5e-9
band.  With bias 1.0 the percentile blend collapses them all to zero
(the spread is below `eps`), and the resulting ordering [2,1,0] differs
from the raw lexical ordering [2,0,1]. -/
theorem C8_counterexample :
    blendOrder semC8 bmC8 1 3 ≠ (argsortAsc bmC8).reverse.take 3 := by
  have hsem : percentileNormalize semC8 = [0, 0, 0] := by
    norm_num [percentileNormalize, semC8, listMinQ, listMaxQ, EPS, min_def, max_def]
  have hbm : percentileNormalize bmC8 = [0, 0, 0] := by
    norm_num [percentileNormalize, bmC8, listMinQ, listMaxQ, EPS, min_def, max_def]
  have hcomb : blendCombined semC8 bmC8 1 = [0, 0, 0] := by
    rw [blendCombined, hsem, hbm]
    norm_num
  have hordN : blendOrder semC8 bmC8 1 3 = [2, 1, 0] := by
    rw [blendOrder, hcomb]
    decide
  have hraw : (argsortAsc bmC8).reverse.take 3 = [2, 0, 1] := by
    norm_num [argsortAsc, bmC8, sortPairs, insertAsc, List.enum, List.enumFrom]
  rw [hordN, hraw]
  decide

/-- C8 amended: for candidate sets of fewer than 20 members whose
score spread is either zero or at least `eps` (1e-8), the percentile
blend with bias 1.0 orders results exactly by the raw lexical scores
and with bias 0.0 exactly by the raw semantic scores; outside these
conditions (sub-`eps` spread, or ≥20 members with percentile clipping)
normalization can collapse distinct scores and reorder them. -/
theorem C8_extreme_bias_ordering (sem bm : List ℚ) (k : Nat)
    (hlen : sem.length = bm.length) (hn : bm.length < 20)
    (hbm : listMaxQ bm - listMinQ bm = 0 ∨ EPS ≤ listMaxQ bm - listMinQ bm)
    (hsem : listMaxQ sem - listMinQ sem = 0 ∨ EPS ≤ listMaxQ sem - listMinQ sem) :
    blendOrder sem bm 1 k = (argsortAsc bm).reverse.take k ∧
    blendOrder sem bm 0 k = (argsortAsc sem).reverse.take k := by
  have hlen2 : (percentileNormalize sem).length = (percentileNormalize bm).length := by
    rw [percentileNormalize_length, percentileNormalize_length, hlen]
  have hns : sem.length < 20 := by omega
  constructor
  · unfold blendOrder blendCombined
    rw [zipWith_bias_one _ _ hlen2, argsortAsc_percentileNormalize bm hn hbm]
  · unfold blendOrder blendCombined
    rw [zipWith_bias_zero _ _ hlen2, argsortAsc_percentileNormalize sem hns hsem]

theorem C8_witness :
    ([(0 : ℚ), 1].length = [(5 : ℚ), 3].length ∧ [(5 : ℚ), 3].length < 20 ∧
      EPS ≤ listMaxQ [(5 : ℚ), 3] - listMinQ [(5 : ℚ), 3] ∧
      EPS ≤ listMaxQ [(0 : ℚ), 1] - listMinQ [(0 : ℚ), 1]) ∧
    blendOrder [(0 : ℚ), 1] [(5 : ℚ), 3] 1 2 =
      (argsortAsc [(5 : ℚ), 3]).reverse.take 2 :=
  ⟨⟨rfl, by decide,
    by norm_num [listMaxQ, listMinQ, max_def, min_def, EPS],
    by norm_num [listMaxQ, listMinQ, max_def, min_def, EPS]⟩,
   (C8_extreme_bias_ordering [(0 : ℚ), 1] [(5 : ℚ), 3] 2 rfl (by decide)
      (Or.inr (by norm_num [listMaxQ, listMinQ, max_def, min_def, EPS]))
      (Or.inr (by norm_num [listMaxQ, listMinQ, max_def, min_def, EPS]))).1⟩

/-! ### Cross-lingual fallback (C4) -/

/-- In deep mode the lexical stage is the score vector over all
documents; with the (library-guaranteed) non-negative BM25 scores,
"zero candidates" is exactly "maximum score zero". -/
theorem bm25Select_nil_iff_max_zero (scores : List ℚ) (hne : scores ≠ [])
    (hnn : ∀ x ∈ scores, 0 ≤ x) :
    (bm25Select scores scores.length = [] ↔ listMaxQ scores = 0) := by
  rw [bm25Select_eq_filter]
  have hlenQ : (sortPairs scores.enum).reverse.length = scores.length := by
    rw [List.length_reverse, (sortPairs_perm _).length_eq, List.enum_length]
  rw [List.take_of_length_le (le_of_eq hlenQ), List.filter_eq_nil_iff]
  constructor
  · intro hall
    have hzero : ∀ x ∈ scores, x = 0 := by
      intro x hx
      have hx2 : x ∈ scores.enum.map Prod.snd := by
        rw [List.enum_map_snd]; exact hx
      rcases List.mem_map.1 hx2 with ⟨p, hp, hpx⟩
      have hpQ : p ∈ (sortPairs scores.enum).reverse :=
        List.mem_reverse.2 ((sortPairs_perm scores.enum).symm.subset hp)
      have := hall p hpQ
      simp only [decide_eq_true_eq] at this
      have h1 : ¬0 < x := by rw [← hpx]; exact this
      exact le_antisymm (not_lt.1 h1) (hnn x hx)
    have hm := listMaxQ_mem scores hne
    exact hzero _ hm
  · intro hmax p hp
    simp only [decide_eq_true_eq]
    have hp2 : p.2 ∈ scores := by
      have hmem : p ∈ scores.enum :=
        (sortPairs_perm scores.enum).subset (List.mem_reverse.1 hp)
      exact List.getElem?_mem (List.mem_enum_iff_getElem?.1 hmem)
    have := le_listMaxQ scores p.2 hp2
    rw [hmax] at this
    exact not_lt.2 this

/-- C4: cross-lingual fallback triggers if and only if the lexical
stage returns zero candidates AND the model-name heuristic flags the
active model multilingual.  In fast mode the trigger substitutes a
sample of at most 100 chunks of the corpus as candidates, forces the
bias to 0 and sets the returned flag; in deep mode (where "zero
candidates" is "no positive BM25 score") it forces the bias to 0 and
sets the flag.  `hinv` is the `build_index` invariant that a loaded
model name implies a loaded reranker. -/
theorem C4_cross_lingual_fallback (st : LocState) (lex : List (PageDocument × ℚ))
    (allScores : List ℚ)
    (sampler : List (PageDocument × ℚ) → List (PageDocument × ℚ)) (bias : ℚ)
    (hdocs : st.documents ≠ [])
    (hbm : st.bm25Built = true)
    (hinv : isMultiModel st.modelName = true → st.rerankerLoaded = true)
    (hsampler : ∀ l : List (PageDocument × ℚ), 100 < l.length →
      (sampler l).length = 100 ∧ ∀ x ∈ sampler l, x ∈ l)
    (hlen : allScores.length = st.documents.length)
    (hnn : ∀ x ∈ allScores, 0 ≤ x) :
    (¬(st.deepMode = true ∧ st.rerankerLoaded = true ∧ st.docEmbeddings.isSome = true) →
      ((searchStage st lex allScores sampler bias).crossLingual = true ↔
        (lex = [] ∧ isMultiModel st.modelName = true)) ∧
      ((searchStage st lex allScores sampler bias).crossLingual = true →
        (searchStage st lex allScores sampler bias).bias = 0 ∧
        (searchStage st lex allScores sampler bias).candidates.length ≤ 100 ∧
        (∀ c ∈ (searchStage st lex allScores sampler bias).candidates,
          c.1 ∈ st.documents))) ∧
    ((st.deepMode = true ∧ st.rerankerLoaded = true ∧ st.docEmbeddings.isSome = true) →
      ((searchStage st lex allScores sampler bias).crossLingual = true ↔
        (bm25Select allScores allScores.length = [] ∧
          isMultiModel st.modelName = true)) ∧
      ((searchStage st lex allScores sampler bias).crossLingual = true →
        (searchStage st lex allScores sampler bias).bias = 0)) := by
  have hde : st.documents.isEmpty = false := by
    cases h : st.documents with
    | nil => exact absurd h hdocs
    | cons a l => rfl
  have hne : allScores ≠ [] := by
    intro h
    rw [h] at hlen
    cases hd : st.documents with
    | nil => exact hdocs hd
    | cons a l => rw [hd] at hlen; simp at hlen
  constructor
  · intro hdeep
    have heq : searchStage st lex allScores sampler bias =
        if lex.isEmpty = true ∧ st.rerankerLoaded = true ∧
            isMultiModel st.modelName = true then
          ⟨none,
           if 100 < (st.documents.map (fun d => (d, (0 : ℚ)))).length then
             sampler (st.documents.map (fun d => (d, (0 : ℚ))))
           else st.documents.map (fun d => (d, (0 : ℚ))), 0, true⟩
        else if lex.isEmpty then ⟨none, [], bias, false⟩
        else ⟨none, lex, bias, false⟩ := by
      unfold searchStage
      rw [hde, if_neg (by simp), hbm, if_neg (by simp), if_neg hdeep]
    constructor
    · rw [heq]
      by_cases htrig : lex.isEmpty = true ∧ st.rerankerLoaded = true ∧
          isMultiModel st.modelName = true
      · rw [if_pos htrig]
        exact ⟨fun _ => ⟨List.isEmpty_iff.1 htrig.1, htrig.2.2⟩, fun _ => rfl⟩
      · rw [if_neg htrig]
        by_cases hlex : lex.isEmpty
        · rw [if_pos hlex]
          constructor
          · intro hfalse; cases hfalse
          · rintro ⟨hl, hm⟩
            exact absurd ⟨hlex, hinv hm, hm⟩ htrig
        · rw [if_neg hlex]
          constructor
          · intro hfalse; cases hfalse
          · rintro ⟨hl, hm⟩
            rw [hl] at hlex
            exact absurd rfl hlex
    · rw [heq]
      by_cases htrig : lex.isEmpty = true ∧ st.rerankerLoaded = true ∧
          isMultiModel st.modelName = true
      · rw [if_pos htrig]
        intro _
        refine ⟨rfl, ?_, ?_⟩
        · by_cases hbig : 100 < (st.documents.map (fun d => (d, (0 : ℚ)))).length
          · rw [if_pos hbig]
            exact le_of_eq (hsampler _ hbig).1
          · rw [if_neg hbig]
            exact not_lt.1 hbig
        · intro c hc
          by_cases hbig : 100 < (st.documents.map (fun d => (d, (0 : ℚ)))).length
          · rw [if_pos hbig] at hc
            have hc2 := (hsampler _ hbig).2 c hc
            rcases List.mem_map.1 hc2 with ⟨d, hd, hdc⟩
            rw [← hdc]
            exact hd
          · rw [if_neg hbig] at hc
            rcases List.mem_map.1 hc with ⟨d, hd, hdc⟩
            rw [← hdc]
            exact hd
      · rw [if_neg htrig]
        by_cases hlex : lex.isEmpty
        · rw [if_pos hlex]
          intro hfalse; cases hfalse
        · rw [if_neg hlex]
          intro hfalse; cases hfalse
  · intro hdeep
    have heq : searchStage st lex allScores sampler bias =
        if listMaxQ allScores = 0 ∧ isMultiModel st.modelName = true then
          ⟨none, st.documents.zip allScores, 0, true⟩
        else ⟨none, st.documents.zip allScores, bias, false⟩ := by
      unfold searchStage
      rw [hde, if_neg (by simp), hbm, if_neg (by simp), if_pos hdeep]
    rw [heq]
    by_cases htrig : listMaxQ allScores = 0 ∧ isMultiModel st.modelName = true
    · rw [if_pos htrig]
      constructor
      · simp only [true_iff]
        exact ⟨(bm25Select_nil_iff_max_zero allScores hne hnn).2 htrig.1, htrig.2⟩
      · intro _; rfl
    · rw [if_neg htrig]
      constructor
      · constructor
        · intro hfalse; cases hfalse
        · rintro ⟨hsel, hm⟩
          exact absurd ⟨(bm25Select_nil_iff_max_zero allScores hne hnn).1 hsel, hm⟩ htrig
      · intro hfalse; cases hfalse

theorem C4_witness :
    isMultiModel (some "intfloat/multilingual-e5-large") = true ∧
    ((searchStage (LocState.mk (some "intfloat/multilingual-e5-large")
        [⟨"a.pdf", 1, "hello", 1⟩] true true none false) [] [0]
        (fun l => l.take 100) 3).crossLingual = true ↔
      (([] : List (PageDocument × ℚ)) = [] ∧
        isMultiModel (some "intfloat/multilingual-e5-large") = true)) :=
  ⟨by decide,
   ((C4_cross_lingual_fallback
       (LocState.mk (some "intfloat/multilingual-e5-large")
         [⟨"a.pdf", 1, "hello", 1⟩] true true none false)
       [] [0] (fun l => l.take 100) 3
       (by decide) rfl (fun _ => rfl)
       (fun l hl => ⟨by rw [List.length_take]; omega,
         fun x hx => (List.take_sublist _ _).subset hx⟩)
       rfl
       (fun x hx => by
         rw [List.mem_singleton] at hx
         rw [hx])).1
     (by simp)).1⟩

/-! ### Tokenizer additivity and strip invariance (C2, C3) -/

theorem pyLower_ws (c : Char) (h : isPyWs c = true) : pyLower c = c := by
  simp only [isPyWs, Bool.or_eq_true, decide_eq_true_eq] at h
  rcases h with ((((h | h) | h) | h) | h) | h <;> (subst h; decide)

theorem not_word_of_ws (c : Char) (h : isPyWs c = true) : isWordChar c = false := by
  simp only [isPyWs, Bool.or_eq_true, decide_eq_true_eq] at h
  rcases h with ((((h | h) | h) | h) | h) | h <;> (subst h; decide)

theorem not_cjk_of_ws (c : Char) (h : isPyWs c = true) : isCJK c = false := by
  simp only [isPyWs, Bool.or_eq_true, decide_eq_true_eq] at h
  rcases h with ((((h | h) | h) | h) | h) | h <;> (subst h; decide)

theorem map_pyLower_ws (ws : List Char) (h : ∀ c ∈ ws, isPyWs c = true) :
    ws.map pyLower = ws := by
  induction ws with
  | nil => rfl
  | cons c cs ih =>
    rw [List.map_cons, pyLower_ws c (h c (List.mem_cons_self _ _)),
      ih (fun d hd => h d (List.mem_cons_of_mem _ hd))]

/-- A non-word character splits the word-run scanner. -/
theorem wordRunsAux_append_nonword (c : Char) (hc : isWordChar c = false)
    (xs : List Char) : ∀ (ys acc : List Char),
    wordRunsAux acc (xs ++ c :: ys) = wordRunsAux acc xs ++ wordRunsAux [] ys := by
  induction xs with
  | nil =>
    intro ys acc
    simp only [List.nil_append, wordRunsAux, hc]
    by_cases hacc : acc.isEmpty = true
    · simp [hacc]
    · simp [hacc]
  | cons x xs ih =>
    intro ys acc
    simp only [List.cons_append, wordRunsAux, List.append_eq]
    by_cases hx : isWordChar x = true
    · rw [if_pos hx, if_pos hx, ih]
    · rw [if_neg hx, if_neg hx]
      by_cases hacc : acc.isEmpty = true
      · rw [if_pos hacc, if_pos hacc, ih]
      · rw [if_neg hacc, if_neg hacc, ih, List.cons_append]

theorem wordRunsAux_allnonword (ws : List Char)
    (hws : ∀ c ∈ ws, isWordChar c = false) :
    ∀ acc, wordRunsAux acc ws = wordRunsAux acc [] := by
  induction ws with
  | nil => intro acc; rfl
  | cons c cs ih =>
    intro acc
    have hc := hws c (List.mem_cons_self _ _)
    have ihcs := ih (fun d hd => hws d (List.mem_cons_of_mem _ hd))
    simp only [wordRunsAux, hc]
    have hnil : wordRunsAux [] cs = [] := by
      rw [ihcs []]
      rfl
    by_cases hacc : acc.isEmpty = true
    · rw [if_neg (by simp), if_pos hacc, hnil]
      simp [wordRunsAux, hacc]
    · rw [if_neg (by simp), if_neg hacc, hnil]
      simp [wordRunsAux, hacc]

theorem wordRunsAux_skip_leading (ws : List Char)
    (hws : ∀ c ∈ ws, isWordChar c = false) (l : List Char) :
    wordRunsAux [] (ws ++ l) = wordRunsAux [] l := by
  induction ws with
  | nil => rfl
  | cons c cs ih =>
    have hc := hws c (List.mem_cons_self _ _)
    simp only [List.cons_append, wordRunsAux, hc, List.append_eq]
    rw [if_neg (by simp), if_pos (by rfl)]
    exact ih (fun d hd => hws d (List.mem_cons_of_mem _ hd))

theorem wordRunsAux_drop_trailing (ws : List Char)
    (hws : ∀ c ∈ ws, isWordChar c = false) (l : List Char) :
    ∀ acc, wordRunsAux acc (l ++ ws) = wordRunsAux acc l := by
  induction l with
  | nil =>
    intro acc
    rw [List.nil_append, wordRunsAux_allnonword ws hws acc]
  | cons x xs ih =>
    intro acc
    simp only [List.cons_append, wordRunsAux, List.append_eq]
    by_cases hx : isWordChar x = true
    · rw [if_pos hx, if_pos hx, ih]
    · rw [if_neg hx, if_neg hx]
      by_cases hacc : acc.isEmpty = true
      · rw [if_pos hacc, if_pos hacc, ih]
      · rw [if_neg hacc, if_neg hacc, ih]

/-- Leading whitespace never contributes tokens. -/
theorem tokenizeChars_ws_left (ws l : List Char)
    (hws : ∀ c ∈ ws, isPyWs c = true) :
    tokenizeChars (ws ++ l) = tokenizeChars l := by
  simp only [tokenizeChars]
  rw [List.map_append, map_pyLower_ws ws hws]
  have hword : ∀ c ∈ ws, isWordChar c = false :=
    fun c hc => not_word_of_ws c (hws c hc)
  have heng : englishTokens (ws ++ l.map pyLower) = englishTokens (l.map pyLower) := by
    unfold englishTokens wordRuns
    rw [wordRunsAux_skip_leading ws hword]
  have hchin : chineseTokens (ws ++ l.map pyLower) = chineseTokens (l.map pyLower) := by
    unfold chineseTokens
    have hnil : List.filter isCJK ws = [] :=
      List.filter_eq_nil_iff.2 (fun c hc => by
        rw [not_cjk_of_ws c (hws c hc)]; exact Bool.false_ne_true)
    rw [List.filter_append, hnil, List.nil_append]
  rw [heng, hchin]

/-- Trailing whitespace never contributes tokens. -/
theorem tokenizeChars_ws_right (l ws : List Char)
    (hws : ∀ c ∈ ws, isPyWs c = true) :
    tokenizeChars (l ++ ws) = tokenizeChars l := by
  simp only [tokenizeChars]
  rw [List.map_append, map_pyLower_ws ws hws]
  have hword : ∀ c ∈ ws, isWordChar c = false :=
    fun c hc => not_word_of_ws c (hws c hc)
  have heng : englishTokens (l.map pyLower ++ ws) = englishTokens (l.map pyLower) := by
    unfold englishTokens wordRuns
    rw [wordRunsAux_drop_trailing ws hword]
  have hchin : chineseTokens (l.map pyLower ++ ws) = chineseTokens (l.map pyLower) := by
    unfold chineseTokens
    have hnil : List.filter isCJK ws = [] :=
      List.filter_eq_nil_iff.2 (fun c hc => by
        rw [not_cjk_of_ws c (hws c hc)]; exact Bool.false_ne_true)
    rw [List.filter_append, hnil, List.append_nil]
  rw [heng, hchin]

/-- Stripping outer whitespace leaves the token list unchanged. -/
theorem tokenizeChars_strip (l : List Char) :
    tokenizeChars (((l.dropWhile isPyWs).reverse.dropWhile isPyWs).reverse) =
      tokenizeChars l := by
  have hTL : tokenizeChars l = tokenizeChars (l.dropWhile isPyWs) := by
    conv_lhs => rw [← List.takeWhile_append_dropWhile isPyWs l]
    exact tokenizeChars_ws_left _ _ (fun c hc => List.mem_takeWhile_imp hc)
  rw [hTL]
  have h2 : (l.dropWhile isPyWs) =
      ((l.dropWhile isPyWs).reverse.dropWhile isPyWs).reverse ++
        ((l.dropWhile isPyWs).reverse.takeWhile isPyWs).reverse := by
    rw [← List.reverse_append, List.takeWhile_append_dropWhile, List.reverse_reverse]
  conv_rhs => rw [h2]
  exact (tokenizeChars_ws_right _ _ (fun c hc =>
    List.mem_takeWhile_imp (List.mem_reverse.1 hc))).symm

theorem tokenize_pyStrip (s : String) : tokenize (pyStrip s) = tokenize s :=
  tokenizeChars_strip s.data

/-- A single space splits the token count additively. -/
theorem tokenizeChars_space_append (a b : List Char) :
    (tokenizeChars (a ++ ' ' :: b)).length =
      (tokenizeChars a).length + (tokenizeChars b).length := by
  simp only [tokenizeChars]
  rw [List.map_append, List.map_cons, show pyLower ' ' = ' ' by decide]
  have heng : englishTokens (a.map pyLower ++ ' ' :: b.map pyLower) =
      englishTokens (a.map pyLower) ++ englishTokens (b.map pyLower) := by
    unfold englishTokens wordRuns
    rw [wordRunsAux_append_nonword ' ' (by decide), List.filter_append,
      List.map_append]
  have hchin : chineseTokens (a.map pyLower ++ ' ' :: b.map pyLower) =
      chineseTokens (a.map pyLower) ++ chineseTokens (b.map pyLower) := by
    unfold chineseTokens
    rw [List.filter_append, List.filter_cons]
    simp only [show isCJK ' ' = false by decide, Bool.false_eq_true, if_false,
      List.map_append]
  rw [heng, hchin]
  simp only [List.filter_append, List.length_append]
  omega

theorem tokenize_pyJoin_length (us : List String) :
    (tokenize (pyJoin " " us)).length =
      (us.map (fun u => (tokenize u).length)).sum := by
  induction us with
  | nil => rfl
  | cons u vs ih =>
    cases vs with
    | nil => simp [pyJoin]
    | cons v ws =>
      have hdata : (u ++ " " ++ pyJoin " " (v :: ws)).data =
          u.data ++ ' ' :: (pyJoin " " (v :: ws)).data := by
        rw [String.data_append, String.data_append]
        rw [show (" " : String).data = [' '] from rfl, List.append_assoc]
        rfl
      show (tokenizeChars (u ++ " " ++ pyJoin " " (v :: ws)).data).length = _
      rw [hdata, tokenizeChars_space_append]
      rw [List.map_cons, List.sum_cons]
      exact congrArg (fun n => (tokenize u).length + n) ih

theorem tokCount_ge_len (u : String) : (tokenize u).length ≤ tokCount u := by
  unfold tokCount
  by_cases h : (tokenize u).length = 0
  · rw [h]; simp
  · rw [if_neg h]

/-- The joined chunk text of a window has at most the window's running
token estimate. -/
theorem tokenize_windowJoin_le (w : List (String × Nat))
    (hw : ∀ p ∈ w, p.2 = tokCount p.1) :
    (tokenize (windowJoin w)).length ≤ sumW w := by
  unfold windowJoin
  rw [tokenize_pyStrip, tokenize_pyJoin_length]
  unfold sumW
  rw [List.map_map]
  apply List.sum_le_sum
  intro p hp
  show (tokenize p.1).length ≤ p.2
  rw [hw p hp]
  exact tokCount_ge_len p.1

/-! ### Chunker window lemmas (C2, C3) -/

theorem sumW_cons (p : String × Nat) (w : List (String × Nat)) :
    sumW (p :: w) = p.2 + sumW w := by
  simp [sumW]

theorem sumW_append (v w : List (String × Nat)) :
    sumW (v ++ w) = sumW v + sumW w := by
  simp [sumW]

theorem evict_suffix (w : List (String × Nat)) (t : Nat) :
    ∃ pre, pre ++ (evict w t).1 = w := by
  induction w generalizing t with
  | nil => exact ⟨[], rfl⟩
  | cons p ws ih =>
    obtain ⟨u, c⟩ := p
    unfold evict
    by_cases h : OVERLAP_TOKENS < t
    · rw [if_pos h]
      rcases ih (t - c) with ⟨pre, hpre⟩
      exact ⟨(u, c) :: pre, by rw [List.cons_append, hpre]⟩
    · rw [if_neg h]
      exact ⟨[], rfl⟩

theorem evict_sum (w : List (String × Nat)) (t : Nat) (ht : t = sumW w) :
    (evict w t).2 = sumW (evict w t).1 ∧ (evict w t).2 ≤ OVERLAP_TOKENS := by
  induction w generalizing t with
  | nil =>
    have h0 : t = 0 := by rw [ht]; simp [sumW]
    subst h0
    exact ⟨rfl, by decide⟩
  | cons p ws ih =>
    obtain ⟨u, c⟩ := p
    unfold evict
    by_cases h : OVERLAP_TOKENS < t
    · rw [if_pos h]
      apply ih
      rw [ht, sumW_cons]
      omega
    · rw [if_neg h]
      exact ⟨ht, not_lt.1 h⟩

theorem evict_ne_nil (w : List (String × Nat)) (t : Nat) (ht : t = sumW w)
    (p : String × Nat) (hlast : w.getLast? = some p)
    (hp : p.2 ≤ OVERLAP_TOKENS) : (evict w t).1 ≠ [] := by
  induction w generalizing t with
  | nil => cases hlast
  | cons q ws ih =>
    obtain ⟨u, c⟩ := q
    unfold evict
    by_cases h : OVERLAP_TOKENS < t
    · rw [if_pos h]
      cases ws with
      | nil =>
        exfalso
        have hpc : p = (u, c) := by
          rw [List.getLast?_singleton] at hlast
          exact (Option.some_injective _ hlast).symm
        have htc : t = c := by rw [ht, sumW_cons]; simp [sumW]
        rw [hpc] at hp
        simp at hp
        omega
      | cons r rs =>
        apply ih
        · rw [ht, sumW_cons]; omega
        · rw [List.getLast?_cons_cons] at hlast
          exact hlast
    · rw [if_neg h]
      simp

/-- The chunk strings collected by `chunkGo` are exactly the joined
emitted windows. -/
theorem chunkGo_eq_windows (units : List String) :
    ∀ (w : List (String × Nat)) (total : Nat) (chunks : List String),
      chunkGo units w total chunks =
        chunks ++ (chunkWindows units w total).map windowJoin := by
  induction units with
  | nil =>
    intro w t cs
    unfold chunkGo chunkWindows
    by_cases h : w.isEmpty = true
    · rw [if_pos h, if_pos h]; simp
    · rw [if_neg h, if_neg h]; simp
  | cons u us ih =>
    intro w t cs
    simp only [chunkGo, chunkWindows]
    by_cases h : MAX_TOKENS < t + tokCount u ∧ ¬w.isEmpty = true
    · rw [if_pos h, if_pos h, ih, List.map_cons, List.append_assoc]
      rfl
    · rw [if_neg h, if_neg h, ih]

theorem le_maxUnitTok (units : List String) :
    ∀ u ∈ units, tokCount u ≤ maxUnitTok units := by
  induction units with
  | nil => simp
  | cons a t ih =>
    intro u hu
    rcases List.mem_cons.1 hu with h | h
    · rw [h]
      exact le_max_left _ _
    · exact le_trans (ih u h) (le_max_right _ _)

/-- Every emitted window's token estimate stays within
`max MAX_TOKENS (OVERLAP_TOKENS + M)` where `M` bounds each unit, and
every window entry carries its unit's `tokCount`. -/
theorem chunkWindows_bound (M : Nat) (units : List String)
    (hM : ∀ u ∈ units, tokCount u ≤ M) :
    ∀ (w : List (String × Nat)) (total : Nat),
      total = sumW w →
      (∀ p ∈ w, p.2 = tokCount p.1) →
      (∀ p ∈ w, p.2 ≤ M) →
      total ≤ max MAX_TOKENS (OVERLAP_TOKENS + M) →
      ∀ W ∈ chunkWindows units w total,
        sumW W ≤ max MAX_TOKENS (OVERLAP_TOKENS + M) ∧
          (∀ p ∈ W, p.2 = tokCount p.1) := by
  induction units with
  | nil =>
    intro w total hsum hcnt hle hbound W hW
    unfold chunkWindows at hW
    by_cases h : w.isEmpty = true
    · rw [if_pos h] at hW; cases hW
    · rw [if_neg h] at hW
      have hWw : W = w := List.mem_singleton.1 hW
      subst hWw
      exact ⟨hsum ▸ hbound, hcnt⟩
  | cons u us ih =>
    intro w total hsum hcnt hle hbound W hW
    have hMu : tokCount u ≤ M := hM u (List.mem_cons_self _ _)
    have hMus : ∀ v ∈ us, tokCount v ≤ M :=
      fun v hv => hM v (List.mem_cons_of_mem _ hv)
    have hBM : OVERLAP_TOKENS + M ≤ max MAX_TOKENS (OVERLAP_TOKENS + M) :=
      le_max_right _ _
    have hBMAX : MAX_TOKENS ≤ max MAX_TOKENS (OVERLAP_TOKENS + M) :=
      le_max_left _ _
    simp only [chunkWindows] at hW
    by_cases hcond : MAX_TOKENS < total + tokCount u ∧ ¬w.isEmpty = true
    · rw [if_pos hcond] at hW
      rcases List.mem_cons.1 hW with hWw | hW2
      · subst hWw
        exact ⟨hsum ▸ hbound, hcnt⟩
      · have hev := evict_sum w total hsum
        rcases evict_suffix w total with ⟨pre, hpre⟩
        have hsub : ∀ p ∈ (evict w total).1, p ∈ w := by
          intro p hp
          rw [← hpre]
          exact List.mem_append_right _ hp
        refine ih hMus _ _ ?_ ?_ ?_ ?_ W hW2
        · rw [sumW_append, ← hev.1, sumW_cons]
          simp [sumW]
        · intro p hp
          rcases List.mem_append.1 hp with hp | hp
          · exact hcnt p (hsub p hp)
          · rw [List.mem_singleton.1 hp]
        · intro p hp
          rcases List.mem_append.1 hp with hp | hp
          · exact hle p (hsub p hp)
          · rw [List.mem_singleton.1 hp]
            exact hMu
        · have := hev.2
          omega
    · rw [if_neg hcond] at hW
      have hdisj : total + tokCount u ≤ MAX_TOKENS ∨ w.isEmpty = true := by
        by_cases h1 : MAX_TOKENS < total + tokCount u
        · right
          by_contra h2
          exact hcond ⟨h1, h2⟩
        · left; omega
      refine ih hMus _ _ ?_ ?_ ?_ ?_ W hW
      · rw [sumW_append, hsum]
        simp [sumW]
      · intro p hp
        rcases List.mem_append.1 hp with hp | hp
        · exact hcnt p hp
        · rw [List.mem_singleton.1 hp]
      · intro p hp
        rcases List.mem_append.1 hp with hp | hp
        · exact hle p hp
        · rw [List.mem_singleton.1 hp]
          exact hMu
      · rcases hdisj with h1 | h1
        · omega
        · have hw0 : w = [] := List.isEmpty_iff.1 h1
          have : total = 0 := by rw [hsum, hw0]; simp [sumW]
          omega

/-- C2 amended: every chunk's token count is bounded by
`max(400, 80 + largest unit token estimate)`: at most 400, except for
chunks formed by an oversized unit appended to at most 80 overlap
tokens. -/
theorem C2_chunk_token_bound (t : String) (c : String) (hc : c ∈ chunkText t) :
    (tokenize c).length ≤
      max MAX_TOKENS (OVERLAP_TOKENS + maxUnitTok (splitUnits t)) := by
  unfold chunkText at hc
  by_cases hu : (splitUnits t).isEmpty = true
  · rw [if_pos hu] at hc; cases hc
  · rw [if_neg hu, chunkGo_eq_windows, List.nil_append] at hc
    have hc2 := List.mem_of_mem_filter hc
    rcases List.mem_map.1 hc2 with ⟨W, hW, hWc⟩
    have hb := chunkWindows_bound (maxUnitTok (splitUnits t)) (splitUnits t)
      (le_maxUnitTok _) [] 0 rfl (by simp) (by simp) (by simp) W hW
    rw [← hWc]
    exact le_trans (tokenize_windowJoin_le W hb.2) hb.1

set_option maxRecDepth 100000 in
theorem C2_witness :
    ("hello world" ∈ chunkText "hello world") ∧
    (tokenize "hello world").length ≤
      max MAX_TOKENS (OVERLAP_TOKENS + maxUnitTok (splitUnits "hello world")) :=
  ⟨by decide, C2_chunk_token_bound "hello world" "hello world" (by decide)⟩

set_option maxRecDepth 1000000 in
set_option maxHeartbeats 2000000 in
/-- C2 counterexample: on `c2text` no single unit exceeds 400 tokens
(they have 80, 350 and 10), yet the second emitted chunk — the 80-token
overlap unit followed by the 350-token unit — has 430 tokens.  The
claim's only allowed exception (a single oversized unit forming its own
chunk) does not apply. -/
theorem C2_counterexample :
    (∀ u ∈ splitUnits c2text, (tokenize u).length ≤ MAX_TOKENS) ∧
    MAX_TOKENS < (tokenize ((chunkText c2text).getD 1 "")).length := by
  constructor
  · decide
  · decide

/-! ### Chunk overlap structure (C3) -/

theorem ListPref_trans {α : Type} {a b c : List α}
    (h1 : ListPref a b) (h2 : ListPref b c) : ListPref a c := by
  rcases h1 with ⟨t1, ht1⟩
  rcases h2 with ⟨t2, ht2⟩
  exact ⟨t1 ++ t2, by rw [← List.append_assoc, ht1, ht2]⟩

theorem chunkWindows_head_pref (units : List String) :
    ∀ (w : List (String × Nat)) (total : Nat) (W : List (String × Nat)),
      (chunkWindows units w total).head? = some W → ListPref w W := by
  induction units with
  | nil =>
    intro w total W hW
    unfold chunkWindows at hW
    by_cases h : w.isEmpty = true
    · rw [if_pos h] at hW; cases hW
    · rw [if_neg h] at hW
      have : w = W := by
        simpa using hW
      rw [this]
      exact ⟨[], List.append_nil _⟩
  | cons u us ih =>
    intro w total W hW
    simp only [chunkWindows] at hW
    by_cases hcond : MAX_TOKENS < total + tokCount u ∧ ¬w.isEmpty = true
    · rw [if_pos hcond] at hW
      have : w = W := by
        simpa using hW
      rw [this]
      exact ⟨[], List.append_nil _⟩
    · rw [if_neg hcond] at hW
      exact ListPref_trans ⟨[(u, tokCount u)], rfl⟩ (ih _ _ W hW)

theorem chunkWindows_chain (units : List String) :
    ∀ (w : List (String × Nat)) (total : Nat), total = sumW w →
      List.Chain' overlapRel (chunkWindows units w total) := by
  induction units with
  | nil =>
    intro w total hsum
    unfold chunkWindows
    by_cases h : w.isEmpty = true
    · rw [if_pos h]; exact List.chain'_nil
    · rw [if_neg h]; exact List.chain'_singleton w
  | cons u us ih =>
    intro w total hsum
    simp only [chunkWindows]
    by_cases hcond : MAX_TOKENS < total + tokCount u ∧ ¬w.isEmpty = true
    · rw [if_pos hcond]
      have hev := evict_sum w total hsum
      have hnew : (evict w total).2 + tokCount u =
          sumW ((evict w total).1 ++ [(u, tokCount u)]) := by
        rw [sumW_append, ← hev.1]
        simp [sumW]
      apply List.chain'_cons'.2
      refine ⟨?_, ih _ _ hnew⟩
      intro W hW
      have hpref := chunkWindows_head_pref us _ _ W (Option.mem_def.1 hW)
      refine ⟨(evict w total).1, ?_, ?_, ?_, ?_⟩
      · rcases evict_suffix w total with ⟨pre, hpre⟩
        exact ⟨pre, hpre⟩
      · exact ListPref_trans ⟨[(u, tokCount u)], rfl⟩ hpref
      · rw [← hev.1]
        exact hev.2
      · intro p hlast hp
        exact evict_ne_nil w total hsum p hlast hp
    · rw [if_neg hcond]
      apply ih
      rw [sumW_append, hsum]
      simp [sumW]

/-- C3 amended: the chunks are the joined emitted windows, and between
any two consecutive emitted windows a final segment of the first —
whose token estimate is within the 80-token overlap budget — survives
eviction and heads the second; that shared segment is non-empty
whenever the last unit of the first window fits the overlap budget (so
adjacent chunks share a unit exactly in that case). -/
theorem C3_overlap_structure (t : String) :
    chunkText t =
      ((chunkWindows (splitUnits t) [] 0).map windowJoin).filter
        (fun c => c ≠ "") ∧
    List.Chain' overlapRel (chunkWindows (splitUnits t) [] 0) := by
  constructor
  · unfold chunkText
    by_cases hu : (splitUnits t).isEmpty = true
    · rw [if_pos hu]
      rw [List.isEmpty_iff.1 hu]
      rfl
    · rw [if_neg hu, chunkGo_eq_windows, List.nil_append]
  · exact chunkWindows_chain (splitUnits t) [] 0 rfl

set_option maxRecDepth 1000000 in
set_option maxHeartbeats 2000000 in
/-- C3 counterexample: on `c3text` (units of 100 and 350 tokens) the
two adjacent chunks are exactly the two distinct single units — after
emitting the first chunk, eviction pops its only (100-token) unit
because 100 > 80, so the windows are disjoint and the chunks share no
sentence/line unit. -/
theorem C3_counterexample :
    splitUnits c3text = [repUnit "ff" 100, repUnit "gg" 350] ∧
    (chunkWindows (splitUnits c3text) [] 0).map (fun W => W.map Prod.fst) =
      [[repUnit "ff" 100], [repUnit "gg" 350]] ∧
    repUnit "ff" 100 ≠ repUnit "gg" 350 ∧
    chunkText c3text = [repUnit "ff" 100, repUnit "gg" 350] := by
  refine ⟨by decide, by decide, by decide, by decide⟩

end Locator
